import Mathlib

/-!
# Verification of the similarity-and-aggregation pipeline of `streamlit_app.py`

This file gives a shallow embedding, in Lean 4, of the core pipeline of the
thesis-abstract recommendation app (`src/streamlit_app.py`):

* `calculate_similarity` (lines 79-131): per-record TF-IDF cosine scoring of a
  corpus against a query abstract;
* `process_author_ids` (lines 133-151): explosion of the semicolon-delimited
  author-identifier field, inner merge with the roster, and descending sort by
  score;
* the summary metrics displayed by `main` (lines 319-331).

Modelling conventions:

* IEEE-754 doubles are modelled exactly: the post-scan pipeline (identifiers,
  rounded scores) uses `ℚ` plus an explicit `PyFloat` type with `nan`/`inf`
  sentinels, while the similarity arithmetic (which involves `log` and `sqrt`)
  is modelled in exact real arithmetic over `ℝ`.  Every concrete value any
  theorem below touches (e.g. `123.5`, `1e2`, `0.935`) is exactly representable
  as a double, so the `ℚ` model agrees with the float semantics there.
* Library calls are embedded by their implementation semantics:
  - `float(...)` follows CPython's accepted grammar (signs, `inf`/`infinity`/
    `nan` case-insensitively, decimal literals with underscores between
    digits, exponents);
  - `np.round(x, 3)` multiplies by `10^3`, rounds half to even, divides;
  - `DataFrame.merge(..., how='inner', on='Auth-ID')` matches keys with the
    pandas hash-table equality on float64 keys, under which `nan` compares
    equal to `nan` (khash: `a == b || (a != a && b != b)`).  pandas emits the
    joined rows in left-row order when every left row has exactly one match
    (the situation in every concrete input below); we embed that order.
  - `DataFrame.sort_values('Score', ascending=False)` is pandas `nargsort`
    with the default `kind='quicksort'`: reverse the values, take numpy's
    `argsort`, map through the reversed index array, and reverse the result.
    numpy's `argsort(kind='quicksort')` for doubles is the portable npysort
    introsort: median-of-three quicksort with crossing-pointer partition,
    insertion sort on partitions of at most 16 elements, and heapsort once
    the depth budget `2*msb(n)` is exhausted.  We embed that algorithm
    step by step (loops become structural/fuelled recursion; the fuel is
    always sufficient, as the sortedness proofs below establish).
* Loops over DataFrame rows become `List.map` / fold; the Streamlit progress
  bar, spinners and chart code are presentation-only and are not modelled.
-/

/-! ## Python floats -/

/-- A CPython `float` as stored in the identifier column: either a finite
value (modelled exactly as a rational) or one of the IEEE sentinels. -/
inductive PyFloat where
  | val (q : ℚ)
  | nan
  | inf
  | ninf
deriving DecidableEq

/-- Whitespace for `str.strip()` (ASCII fragment: space, tab, newline,
carriage return, vertical tab, form feed). -/
def pyIsSpace (c : Char) : Bool :=
  c = ' ' || c = '\t' || c = '\n' || c = '\r' || c = Char.ofNat 11 || c = Char.ofNat 12

/-- Python `str.strip()` with no argument: drop leading and trailing
whitespace. -/
def pyStrip (s : String) : String :=
  ⟨((s.data.dropWhile pyIsSpace).reverse.dropWhile pyIsSpace).reverse⟩

/-- Digit run to a natural number. -/
def digitsToNat (ds : List Char) : ℕ :=
  ds.foldl (fun acc c => 10 * acc + (c.toNat - '0'.toNat)) 0

/-- In a Python float literal every underscore must sit directly between two
digits (PEP 515). -/
def underscoresOk (cs : List Char) : Bool :=
  (List.range cs.length).all fun i =>
    if (cs.getD i ' ') = '_' then
      decide (0 < i) && decide (i + 1 < cs.length) &&
        (cs.getD (i - 1) ' ').isDigit && (cs.getD (i + 1) ' ').isDigit
    else true

/-- Strip an optional leading sign; `true` means negative. -/
def splitSign (cs : List Char) : Bool × List Char :=
  match cs with
  | [] => (false, [])
  | c :: r =>
      if c = '+' then (false, r)
      else if c = '-' then (true, r)
      else (false, c :: r)

/-- The fraction digits after an optional `'.'`, and the remaining input. -/
def fracAndRest (cs : List Char) : List Char × List Char :=
  match cs with
  | [] => ([], [])
  | c :: r =>
      if c = '.' then (r.takeWhile Char.isDigit, r.dropWhile Char.isDigit)
      else ([], c :: r)

/-- Parse the decimal part of a Python float literal (no sign, underscores
already removed): `digits [. digits] [e [sign] digits]`, where at least one
mantissa digit must be present.  Returns the exact rational value. -/
def parseDecimalCore (cs : List Char) : Option ℚ :=
  let ipart := cs.takeWhile Char.isDigit
  let rest1 := cs.dropWhile Char.isDigit
  let fr := fracAndRest rest1
  if ipart.isEmpty && fr.1.isEmpty then none
  else
    let mant : ℚ := (digitsToNat (ipart ++ fr.1) : ℚ) / ((10 : ℚ) ^ fr.1.length)
    match fr.2 with
    | [] => some mant
    | e :: r =>
      if e = 'e' || e = 'E' then
        let sr := splitSign r
        if sr.2.isEmpty || !(sr.2.all Char.isDigit) then none
        else
          some (mant * (10 : ℚ) ^ ((if sr.1 then -1 else 1) * (digitsToNat sr.2 : ℤ)))
      else none

/-- CPython `float(str)` on an already-stripped string: optional sign, then
`inf`/`infinity`/`nan` case-insensitively or a decimal literal (underscores
between digits allowed).  `none` models `ValueError`.  (Extreme exponents
that overflow a double to `inf` are modelled exactly instead; no input
considered below is in that regime.) -/
def pyFloatOfString (s : String) : Option PyFloat :=
  let sb := splitSign s.data
  let lower := sb.2.map Char.toLower
  if lower = ['i', 'n', 'f'] || lower = ['i', 'n', 'f', 'i', 'n', 'i', 't', 'y'] then
    some (if sb.1 then PyFloat.ninf else PyFloat.inf)
  else if lower = ['n', 'a', 'n'] then
    some PyFloat.nan
  else if !underscoresOk sb.2 then none
  else
    (parseDecimalCore (sb.2.filter (· ≠ '_'))).map fun q =>
      PyFloat.val (if sb.1 then -q else q)

/-! ## numpy rounding -/

/-- Round a rational to the nearest integer, halves to even (C `rint`, used
by `np.round`). -/
def rintQ (q : ℚ) : ℤ :=
  let f : ℤ := ⌊q⌋
  let r : ℚ := q - (f : ℚ)
  if r < 1 / 2 then f
  else if (1 : ℚ) / 2 < r then f + 1
  else if f % 2 = 0 then f else f + 1

/-- `np.round(x, 3)`: scale by `10^3`, round half to even, scale back. -/
def npRound3 (q : ℚ) : ℚ :=
  (rintQ (q * 1000) : ℚ) / 1000

/-! ## `process_author_ids` (lines 133-151): explosion, merge, sort -/

/-- The two columns of the `results_df` row that `process_author_ids` reads:
the raw `'IDs'` cell (`none` models a NaN/missing cell, filtered by
`pd.notna`) and the `'Score_Abs'` value. -/
structure ScoreRow where
  ids : Option String
  scoreAbs : ℚ
deriving DecidableEq

/-- One exploded `[float(author_id.strip()), np.round(row['Score_Abs'], 3)]`
pair (a row of `author_scores_df`). -/
structure IdentifiedScore where
  authId : PyFloat
  score : ℚ
deriving DecidableEq

/-- One roster row of `futa_authors`: the numeric `'Auth-ID'` key plus its
descriptive columns (name etc.), whose schema the core does not fix. -/
structure RosterEntry where
  authId : PyFloat
  name : String
deriving DecidableEq

/-- One row of `merged_df`: the score columns joined with the roster columns. -/
structure RecRow where
  authId : PyFloat
  score : ℚ
  entry : RosterEntry
deriving DecidableEq

instance : Inhabited RecRow := ⟨⟨PyFloat.nan, 0, ⟨PyFloat.nan, ""⟩⟩⟩

/-- Python `str.split(';')` (`cur` is the current chunk, reversed): empty
chunks are kept, and the empty string yields `['']`. -/
def splitSemiAux : List Char → List Char → List (List Char)
  | [], cur => [cur.reverse]
  | c :: cs, cur =>
      if c = ';' then cur.reverse :: splitSemiAux cs []
      else splitSemiAux cs (c :: cur)

/-- Python `str.split(';')`. -/
def pySplitSemi (s : String) : List String :=
  (splitSemiAux s.data []).map fun l => ⟨l⟩

/-- Lines 138-144: for one row, split the `'IDs'` cell on `';'`, strip each
token, parse it with `float(...)`, keep the parses that succeed (the
`except ValueError: continue`), and attach the rounded abstract score. -/
def explodeRow (r : ScoreRow) : List IdentifiedScore :=
  match r.ids with
  | none => []
  | some s =>
      (pySplitSemi s).filterMap fun tok =>
        (pyFloatOfString (pyStrip tok)).map fun v =>
          { authId := v, score := npRound3 r.scoreAbs }

/-- Lines 137-144: the full `for i, row in results_df.iterrows()` loop. -/
def explodeRows (rows : List ScoreRow) : List IdentifiedScore :=
  rows.flatMap explodeRow

/-- pandas float64 key equality in `merge` (khash):
`a == b || (a != a && b != b)` — IEEE equality with `nan` matching `nan`.
On `PyFloat` this is exactly structural equality. -/
def pdKeyEq (a b : PyFloat) : Bool :=
  a = b

/-- Line 149: `author_scores_df.merge(futa_authors, how='inner',
on='Auth-ID')`.  Every score row is matched against every roster row with an
equal key; unmatched rows on either side are dropped.  Rows are emitted in
left-row order (see the header comment on pandas merge ordering). -/
def innerMerge (scores : List IdentifiedScore) (roster : List RosterEntry) :
    List RecRow :=
  scores.flatMap fun s =>
    (roster.filter fun r => pdKeyEq s.authId r.authId).map fun r =>
      { authId := s.authId, score := s.score, entry := r }

/-! ### numpy `argsort(kind='quicksort')`: the npysort introsort

The argsort works on an index array `t`; comparisons read the value array
through the indices (`v`).  `lswap` is `INTP_SWAP` (guarded so that the
out-of-range case, which the C code never reaches, is the identity). -/

/-- Swap two positions of a list (identity when an index is out of range —
unreachable in the algorithm). -/
def lswap (l : List ℕ) (i j : ℕ) : List ℕ :=
  if i < l.length ∧ j < l.length then
    (l.set i (l.getD j 0)).set j (l.getD i 0)
  else l

/-- `do ++pi; while (v[*pi] < vp)` — first position at or above `k` whose
value is not below the pivot, clamped at `pr` (the clamp is unreachable: the
pivot value sits at `pr - 1`). -/
def scanUpGo (v : ℕ → ℚ) (vp : ℚ) (t : List ℕ) : ℕ → ℕ → ℕ
  | 0, k => k
  | fuel + 1, k => if v (t.getD k 0) < vp then scanUpGo v vp t fuel (k + 1) else k

/-- See `scanUpGo`: the scan starts at `k` and can take at most `pr - k`
steps before hitting the clamp. -/
def scanUp (v : ℕ → ℚ) (vp : ℚ) (t : List ℕ) (pr k : ℕ) : ℕ :=
  scanUpGo v vp t (pr - k) k

/-- `do --pj; while (vp < v[*pj])` — first position at or below `k` whose
value is not above the pivot, clamped at `0` (the clamp is unreachable: the
leftmost value is at most the pivot after the median-of-three step). -/
def scanDown (v : ℕ → ℚ) (vp : ℚ) (t : List ℕ) (k : ℕ) : ℕ :=
  if vp < v (t.getD k 0) then
    match k with
    | 0 => 0
    | k' + 1 => scanDown v vp t k'
  else k

/-- The crossing-pointer loop of the npysort partition.  `fuel` bounds the
iteration count (each iteration strictly decreases `pj`, so `pj + 1` fuel
always suffices). -/
def partLoop (v : ℕ → ℚ) (vp : ℚ) (pr : ℕ) :
    ℕ → List ℕ → ℕ → ℕ → ℕ × List ℕ
  | 0, t, pi, _ => (pi, t)
  | fuel + 1, t, pi, pj =>
      let pi2 := scanUp v vp t pr (pi + 1)
      let pj2 := scanDown v vp t (pj - 1)
      if pj2 ≤ pi2 then (pi2, t)
      else partLoop v vp pr fuel (lswap t pi2 pj2) pi2 pj2

/-- `if (LT(v[*b], v[*a])) INTP_SWAP(*b, *a)` — order two positions. -/
def condSwapLe (v : ℕ → ℚ) (a b : ℕ) (u : List ℕ) : List ℕ :=
  if v (u.getD b 0) < v (u.getD a 0) then lswap u b a else u

/-- The median-of-three swaps on the first, middle and last positions of the
segment: afterwards the values there are mutually ordered and the middle one
is the pivot. -/
def med3 (v : ℕ → ℚ) (t : List ℕ) : List ℕ :=
  let pr := t.length - 1
  let pm := pr / 2
  condSwapLe v 0 pm (condSwapLe v pm pr (condSwapLe v 0 pm t))

/-- One npysort partition step on a segment of length `≥ 17`: median-of-three,
pivot stashed at `pr - 1`, crossing pointers, final swap of the meeting point
with the stashed pivot.  Returns the meeting position and the permuted
segment. -/
def apartition (v : ℕ → ℚ) (t : List ℕ) : ℕ × List ℕ :=
  let pr := t.length - 1
  let pm := pr / 2
  let t3 := med3 v t
  let vp := v (t3.getD pm 0)
  let t4 := lswap t3 pm (pr - 1)
  let pt := partLoop v vp pr pr t4 0 (pr - 1)
  (pt.1, lswap pt.2 pt.1 (pr - 1))

/-- Ordered insert used by the final insertion sort: the element moves left
past strictly greater values only, so it lands after any equal ones. -/
def insertLe (v : ℕ → ℚ) (x : ℕ) : List ℕ → List ℕ
  | [] => [x]
  | a :: as => if v x < v a then x :: a :: as else a :: insertLe v x as

/-- The insertion sort run on segments of at most 16 elements. -/
def insertionASort (v : ℕ → ℚ) (t : List ℕ) : List ℕ :=
  t.foldl (fun acc x => insertLe v x acc) []

/-- One-based read used by the npysort heapsort (`a = tosort - 1`). -/
def get1 (a : List ℕ) (i : ℕ) : ℕ :=
  a.getD (i - 1) 0

/-- One-based write used by the npysort heapsort. -/
def set1 (a : List ℕ) (i : ℕ) (x : ℕ) : List ℕ :=
  a.set (i - 1) x

/-- The larger child: `j + 1` when it exists (`j < nn`) and beats `j`. -/
def siftChild (v : ℕ → ℚ) (nn : ℕ) (a : List ℕ) (jj : ℕ) : ℕ :=
  if jj < nn ∧ v (get1 a jj) < v (get1 a (jj + 1)) then jj + 1 else jj

/-- The npysort sift: the hole at `ii` is filled by the larger child while it
is larger than `tmp`; `tmp` lands in the final hole.  `fuel` bounds the
descent (the child index at least doubles each step, so `nn + 1` fuel always
suffices). -/
def siftDown (v : ℕ → ℚ) (nn : ℕ) :
    ℕ → List ℕ → ℕ → ℕ → ℕ → List ℕ
  | 0, a, tmp, ii, _ => set1 a ii tmp
  | fuel + 1, a, tmp, ii, jj =>
      if jj ≤ nn then
        if v tmp < v (get1 a (siftChild v nn a jj)) then
          siftDown v nn fuel (set1 a ii (get1 a (siftChild v nn a jj))) tmp
            (siftChild v nn a jj) (2 * siftChild v nn a jj)
        else set1 a ii tmp
      else set1 a ii tmp

/-- Heapify phase: `for (l = n >> 1; l > 0; --l)` sift `a[l]` down. -/
def buildHeapLoop (v : ℕ → ℚ) (n : ℕ) : ℕ → List ℕ → List ℕ
  | 0, a => a
  | l + 1, a =>
      buildHeapLoop v n l (siftDown v n (n + 1) a (get1 a (l + 1)) (l + 1) (2 * (l + 1)))

/-- Extraction phase: move the root to the end, shrink, sift the old last
element down from the root. -/
def extractLoop (v : ℕ → ℚ) : ℕ → List ℕ → List ℕ
  | 0, a => a
  | 1, a => a
  | m + 2, a =>
      let tmp := get1 a (m + 2)
      let a1 := set1 a (m + 2) (get1 a 1)
      extractLoop v (m + 1) (siftDown v (m + 1) (m + 2) a1 tmp 1 2)

/-- npysort `aheapsort` on an index segment. -/
def aheapsort (v : ℕ → ℚ) (t : List ℕ) : List ℕ :=
  extractLoop v t.length (buildHeapLoop v t.length (t.length / 2) t)

/-- The npysort introsort driver: partitions of more than 16 elements are
split by `apartition` with a depth budget; a segment arriving from the stack
with exhausted budget is heapsorted; small partitions are insertion sorted.
`check` records whether this segment was just popped from the stack (only
then is the depth budget consulted, as in the C control flow).  `fuel`
bounds the recursion depth (each partition strictly shrinks the segment, so
`t.length + 1` fuel always suffices). -/
def introLoop (v : ℕ → ℚ) :
    ℕ → List ℕ → ℤ → Bool → List ℕ
  | 0, t, _, _ => t
  | fuel + 1, t, d, check =>
      if check ∧ d < 0 then aheapsort v t
      else if t.length ≤ 16 then insertionASort v t
      else
        if ((apartition v t).2.take (apartition v t).1).length <
            ((apartition v t).2.drop ((apartition v t).1 + 1)).length then
          introLoop v fuel ((apartition v t).2.take (apartition v t).1) (d - 1) false ++
            (apartition v t).2.getD (apartition v t).1 0 ::
              introLoop v fuel ((apartition v t).2.drop ((apartition v t).1 + 1)) (d - 1) true
        else
          introLoop v fuel ((apartition v t).2.take (apartition v t).1) (d - 1) true ++
            (apartition v t).2.getD (apartition v t).1 0 ::
              introLoop v fuel ((apartition v t).2.drop ((apartition v t).1 + 1)) (d - 1) false

/-- `npy_get_msb`: position of the most significant bit (`⌊log2 n⌋` for
`n ≥ 1`), written with structural fuel so it evaluates by kernel
reduction. -/
def msbFuel : ℕ → ℕ → ℕ
  | 0, _ => 0
  | fuel + 1, n => if n ≤ 1 then 0 else msbFuel fuel (n / 2) + 1

def npyGetMsb (n : ℕ) : ℕ := msbFuel n n

/-- numpy `argsort(kind='quicksort')` on a list of doubles: indices `0..n-1`
permuted so that the values read through them are ascending. -/
def npArgsort (vals : List ℚ) : List ℕ :=
  let v : ℕ → ℚ := fun i => vals.getD i 0
  introLoop v (vals.length + 1) (List.range vals.length)
    (2 * (npyGetMsb vals.length : ℤ)) false

/-- pandas `nargsort(ascending=False)` for a NaN-free column: reverse the
values, argsort, read through the reversed index array, reverse the result. -/
def pdNargsortDesc (vals : List ℚ) : List ℕ :=
  let ridx := (List.range vals.length).reverse
  ((npArgsort vals.reverse).map fun j => ridx.getD j 0).reverse

/-- Line 151: `merged_df.sort_values('Score', ascending=False)` — reorder the
rows by the descending argsort of the `'Score'` column. -/
def sortValuesScoreDesc (rows : List RecRow) : List RecRow :=
  (pdNargsortDesc (rows.map (·.score))).map fun i => rows.getD i default

/-- Lines 146-151 applied to already-exploded scores (the RosterJoiner of the
design): inner merge with the roster, then sort by score descending. -/
def rosterJoin (scores : List IdentifiedScore) (roster : List RosterEntry) :
    List RecRow :=
  sortValuesScoreDesc (innerMerge scores roster)

/-- `process_author_ids` (lines 133-151), end to end. -/
def process_author_ids (rows : List ScoreRow) (roster : List RosterEntry) :
    List RecRow :=
  rosterJoin (explodeRows rows) roster

/-! ## The summary metrics of `main` (lines 319-331) -/

/-- pandas `Series.mean()`: NaN (modelled `none`) on an empty series.  (The
scores are never NaN, so `skipna` plays no role.) -/
def seriesMean (l : List ℚ) : Option ℚ :=
  if l.isEmpty then none else some (l.sum / l.length)

/-- pandas `Series.max()`: NaN (modelled `none`) on an empty series. -/
def seriesMax : List ℚ → Option ℚ
  | [] => none
  | x :: xs => some (xs.foldl max x)

/-- The four metrics `main` renders whenever recommendations exist (lines
319-331): total matches, mean score, max score, mean of the top-20 slice.
`none` models a displayed NaN. -/
def summaryMetrics (scores : List ℚ) : ℕ × Option ℚ × Option ℚ × Option ℚ :=
  (scores.length, seriesMean scores, seriesMax scores, seriesMean (scores.take 20))

/-! ## `calculate_similarity` (lines 79-131): pairwise TF-IDF and cosine

`TfidfVectorizer(stop_words='english', max_features=5000)` with the sklearn
defaults: lowercase, tokens are maximal runs of at least two word characters,
stop words removed, vocabulary sorted, counts weighted by the smoothed IDF
`ln((1+n)/(1+df)) + 1` over the two-document mini-corpus, rows L2-normalized.
`cosine_similarity` then normalizes the rows again and takes the dot product.
The similarity arithmetic is carried out in exact real arithmetic (`ℝ`),
the idealization of the float64 computation; the token/vocabulary layer
stays computable so that hypotheses about it can be decided. -/

/-- A word character of the token pattern `\b\w\w+\b` (ASCII fragment of
`\w`). -/
def isWordChar (c : Char) : Bool :=
  c.isAlphanum || c = '_'

/-- Maximal runs of word characters (`cur` is the current run, reversed). -/
def tokenRunsAux : List Char → List Char → List (List Char)
  | [], cur => if cur.isEmpty then [] else [cur.reverse]
  | c :: cs, cur =>
      if isWordChar c then tokenRunsAux cs (c :: cur)
      else if cur.isEmpty then tokenRunsAux cs []
      else cur.reverse :: tokenRunsAux cs []

/-- The sklearn default analyzer: lowercase, then keep the maximal
word-character runs of length at least two. -/
def tokenize (s : String) : List String :=
  ((tokenRunsAux (s.data.map Char.toLower) []).filter fun r => 2 ≤ r.length).map
    fun r => ⟨r⟩

/-- Stop words removed by `stop_words='english'`.  This is the commonly hit
fragment of sklearn's frozen 318-word list; every theorem below holds for an
arbitrary stop-word list, so only the concrete witnesses evaluate
membership, and they only use words whose status is listed here. -/
def englishStopWords : List String :=
  ["a", "about", "above", "after", "again", "against", "all", "am", "an",
   "and", "any", "are", "as", "at", "be", "because", "been", "before",
   "being", "below", "between", "both", "but", "by", "can", "could", "did",
   "do", "does", "doing", "down", "during", "each", "few", "for", "from",
   "further", "had", "has", "have", "having", "he", "her", "here", "hers",
   "him", "his", "how", "i", "if", "in", "into", "is", "it", "its", "just",
   "me", "more", "most", "my", "no", "nor", "not", "now", "of", "off", "on",
   "once", "only", "or", "other", "our", "ours", "out", "over", "own",
   "same", "she", "should", "so", "some", "such", "than", "that", "the",
   "their", "theirs", "them", "then", "there", "these", "they", "this",
   "those", "through", "to", "too", "under", "until", "up", "very", "was",
   "we", "were", "what", "when", "where", "which", "while", "who", "whom",
   "why", "will", "with", "you", "your", "yours"]

/-- The terms of one document: tokens minus stop words. -/
def docTerms (s : String) : List String :=
  (tokenize s).filter fun t => !(englishStopWords.contains t)

/-- First occurrences of each string, in encounter order (`acc` holds the
already-seen strings, reversed). -/
def dedupAux : List String → List String → List String
  | [], acc => acc.reverse
  | x :: xs, acc =>
      if acc.contains x then dedupAux xs acc else dedupAux xs (x :: acc)

/-- Stable ordered insert for the vocabulary sort. -/
def ordInsert (le : String → String → Bool) (x : String) :
    List String → List String
  | [] => [x]
  | a :: as => if le a x then a :: ordInsert le x as else x :: a :: as

/-- Stable insertion sort (the sort order is all that matters: the input is
duplicate-free). -/
def sortStrings (le : String → String → Bool) (l : List String) : List String :=
  l.foldl (fun acc x => ordInsert le x acc) []

/-- Lexicographic comparison on character lists (the order `String` sorts
by). -/
def lexLe : List Char → List Char → Bool
  | [], _ => true
  | _ :: _, [] => false
  | a :: as, b :: bs => if a < b then true else if b < a then false else lexLe as bs

/-- The shared vocabulary of the two-document mini-corpus, sorted
alphabetically (sklearn sorts its feature names). -/
def rawVocab (a b : String) : List String :=
  sortStrings (fun x y => lexLe x.data y.data) (dedupAux (docTerms a ++ docTerms b) [])

/-- `max_features=5000`: when more terms are present, keep the 5000 with the
highest total count (ties resolved toward earlier vocabulary order, as
sklearn's stable argsort of the negated counts does), preserving alphabetical
order of the survivors.  A no-op below 5001 distinct terms. -/
def limitFeatures (vocab : List String) (total : String → ℕ) : List String :=
  if vocab.length ≤ 5000 then vocab
  else
    let kept := (sortStrings (fun x y => total y ≤ total x) vocab).take 5000
    vocab.filter fun t => kept.contains t

/-- The fitted vocabulary of `fit_transform([a, b])`. -/
def fitVocab (a b : String) : List String :=
  limitFeatures (rawVocab a b) fun t =>
    (docTerms a).count t + (docTerms b).count t

/-- Document frequency of a term over the two-document mini-corpus. -/
def docFreq (a b : String) (t : String) : ℕ :=
  (if (docTerms a).count t ≠ 0 then 1 else 0) +
    (if (docTerms b).count t ≠ 0 then 1 else 0)

/-- Smoothed IDF over the two-document mini-corpus:
`ln((1 + 2)/(1 + df)) + 1`. -/
noncomputable def idf (a b : String) (t : String) : ℝ :=
  Real.log (3 / (1 + (docFreq a b t : ℝ))) + 1

/-- The unnormalized TF-IDF row of document `d` over the fitted vocabulary. -/
noncomputable def rawRow (a b : String) (d : String) : List ℝ :=
  (fitVocab a b).map fun t => ((docTerms d).count t : ℝ) * idf a b t

/-- Sum of squares. -/
noncomputable def sumSq (x : List ℝ) : ℝ :=
  (x.map fun v => v * v).sum

/-- Dot product of two rows. -/
noncomputable def dotL (x y : List ℝ) : ℝ :=
  (List.zipWith (· * ·) x y).sum

/-- L2 row normalization as sklearn performs it (a zero row is left as is). -/
noncomputable def l2normalize (x : List ℝ) : List ℝ :=
  if sumSq x = 0 then x else x.map fun v => v / Real.sqrt (sumSq x)

/-- `cosine_similarity(V)[0][1]` on the two (already normalized) rows:
normalize again, then dot. -/
noncomputable def cosine01 (x y : List ℝ) : ℝ :=
  dotL (l2normalize x) (l2normalize y)

/-- `vectorizer.fit_transform([cand, target])` followed by
`cosine_similarity(...)[0][1]`: `none` models the `ValueError` raised on an
empty vocabulary. -/
noncomputable def similarity (cand target : String) : Option ℝ :=
  if fitVocab cand target = [] then none
  else some (cosine01 (l2normalize (rawRow cand target cand))
                      (l2normalize (rawRow cand target target)))

/-- One corpus row as `calculate_similarity` reads it: `none` fields model
NaN cells of the CSV. -/
structure CorpusRecord where
  authors : String
  ids : Option String
  abstract : Option String
  authorKw : Option String
  indexKw : Option String

/-- One row of the `results` DataFrame built by `calculate_similarity`
(line 131): the abstract score is always numeric (the bare `except` maps any
failure to `0`), while the keyword scores are NaN (`none`) when the field is
missing or its vectorization fails. -/
structure SimScoreRow where
  authors : String
  ids : Option String
  scoreAbs : ℝ
  scoreAut : Option ℝ
  scoreInd : Option ℝ

/-- The body of the per-record loop (lines 91-126).  For the abstract (lines
94-98) there is no `pd.notna` guard: a NaN cell makes `fit_transform` raise
and the bare `except` stores `0`; an empty vocabulary likewise.  For the two
keyword fields (lines 101-118) a missing cell stores `np.nan`, and the
`except` also stores `np.nan`. -/
noncomputable def scoreRecord (target : String) (r : CorpusRecord) : SimScoreRow :=
  { authors := r.authors
    ids := r.ids
    scoreAbs :=
      match r.abstract with
      | none => 0
      | some a => (similarity a target).getD 0
    scoreAut := r.authorKw.bind fun k => similarity k target
    scoreInd := r.indexKw.bind fun k => similarity k target }

/-- `calculate_similarity` (lines 79-131): one output row per corpus record,
in corpus order. -/
noncomputable def calculate_similarity (target : String)
    (corpus : List CorpusRecord) : List SimScoreRow :=
  corpus.map (scoreRecord target)

/-! ## Permutation infrastructure for the embedded sorts -/

theorem set_getD_self (l : List ℕ) (i : ℕ) : l.set i (l.getD i 0) = l := by
  by_cases h : i < l.length
  · apply List.ext_getElem (by simp)
    intro k hk hk'
    by_cases hki : k = i
    · subst hki
      rw [List.getElem_set_self, List.getD_eq_getElem _ _ h]
    · rw [List.getElem_set_ne (fun he => hki he.symm)]
  · rw [List.set_eq_of_length_le (Nat.le_of_not_lt h)]

theorem set_set_getD_perm (a : List ℕ) (P Q x : ℕ) (hPQ : P ≠ Q)
    (hP : P < a.length) (hQ : Q < a.length) :
    ((a.set P (a.getD Q 0)).set Q x).Perm (a.set P x) := by
  rw [List.perm_iff_count]
  intro c
  have hQ' : Q < (a.set P (a.getD Q 0)).length := by simpa using hQ
  rw [List.count_set _ _ _ _ hQ', List.count_set _ _ _ _ hP,
    List.count_set _ _ _ _ hP, List.getElem_set_ne hPQ]
  have hgd : a.getD Q 0 = a[Q] := List.getD_eq_getElem _ _ hQ
  simp only [hgd]
  by_cases h1 : a[P] = c <;> by_cases h2 : a[Q] = c <;> by_cases h3 : x = c <;>
    simp [h1, h2, h3] <;> omega

theorem lswap_perm (l : List ℕ) (i j : ℕ) : (lswap l i j).Perm l := by
  unfold lswap
  split
  · rename_i h
    obtain ⟨hi, hj⟩ := h
    by_cases hij : i = j
    · subst hij
      rw [List.set_set, set_getD_self]
    · exact (set_set_getD_perm l i j _ hij hi hj).trans
        (by rw [set_getD_self])
  · exact List.Perm.refl _

theorem swapIf_perm (c : Prop) [Decidable c] (l : List ℕ) (i j : ℕ) :
    (if c then lswap l i j else l).Perm l := by
  split
  · exact lswap_perm l i j
  · exact List.Perm.refl _

theorem partLoop_perm (v : ℕ → ℚ) (vp : ℚ) (pr : ℕ) :
    ∀ (fuel : ℕ) (t : List ℕ) (pi pj : ℕ),
      ((partLoop v vp pr fuel t pi pj).2).Perm t := by
  intro fuel
  induction fuel with
  | zero => intro t pi pj; exact List.Perm.refl _
  | succ fuel ih =>
      intro t pi pj
      rw [partLoop]
      split
      · exact List.Perm.refl _
      · exact (ih _ _ _).trans (lswap_perm _ _ _)

theorem condSwapLe_perm (v : ℕ → ℚ) (a b : ℕ) (u : List ℕ) :
    (condSwapLe v a b u).Perm u :=
  swapIf_perm _ _ _ _

theorem med3_perm (v : ℕ → ℚ) (t : List ℕ) : (med3 v t).Perm t := by
  unfold med3
  exact (condSwapLe_perm _ _ _ _).trans
    ((condSwapLe_perm _ _ _ _).trans (condSwapLe_perm _ _ _ _))

theorem apartition_perm (v : ℕ → ℚ) (t : List ℕ) :
    ((apartition v t).2).Perm t := by
  unfold apartition
  refine (lswap_perm _ _ _).trans ?_
  refine (partLoop_perm _ _ _ _ _ _ _).trans ?_
  exact (lswap_perm _ _ _).trans (med3_perm v t)

theorem apartition_length (v : ℕ → ℚ) (t : List ℕ) :
    (apartition v t).2.length = t.length :=
  (apartition_perm v t).length_eq

theorem scanUpGo_le (v : ℕ → ℚ) (vp : ℚ) (t : List ℕ) :
    ∀ (fuel k : ℕ), scanUpGo v vp t fuel k ≤ k + fuel := by
  intro fuel
  induction fuel with
  | zero => intro k; simp [scanUpGo]
  | succ fuel ih =>
      intro k
      rw [scanUpGo]
      split
      · exact le_trans (ih (k + 1)) (by omega)
      · omega

theorem scanUpGo_ge (v : ℕ → ℚ) (vp : ℚ) (t : List ℕ) :
    ∀ (fuel k : ℕ), k ≤ scanUpGo v vp t fuel k := by
  intro fuel
  induction fuel with
  | zero => intro k; simp [scanUpGo]
  | succ fuel ih =>
      intro k
      rw [scanUpGo]
      split
      · exact le_trans (by omega) (ih (k + 1))
      · omega

theorem scanUp_le (v : ℕ → ℚ) (vp : ℚ) (t : List ℕ) (pr k : ℕ) (h : k ≤ pr) :
    scanUp v vp t pr k ≤ pr := by
  unfold scanUp
  have := scanUpGo_le v vp t (pr - k) k
  omega

theorem scanDown_le (v : ℕ → ℚ) (vp : ℚ) (t : List ℕ) :
    ∀ k : ℕ, scanDown v vp t k ≤ k := by
  intro k
  induction k with
  | zero => rw [scanDown]; split <;> omega
  | succ k ih =>
      rw [scanDown]
      split
      · exact le_trans ih (by omega)
      · omega

theorem partLoop_fst_le (v : ℕ → ℚ) (vp : ℚ) (pr : ℕ) (hpr : 2 ≤ pr) :
    ∀ (fuel : ℕ) (t : List ℕ) (pi pj : ℕ), pi ≤ pr - 2 → pj ≤ pr - 1 →
      (partLoop v vp pr fuel t pi pj).1 ≤ pr := by
  intro fuel
  induction fuel with
  | zero => intro t pi pj hpi hpj; rw [partLoop]; omega
  | succ fuel ih =>
      intro t pi pj hpi hpj
      rw [partLoop]
      have hup : scanUp v vp t pr (pi + 1) ≤ pr := scanUp_le v vp t pr _ (by omega)
      have hdn : scanDown v vp t (pj - 1) ≤ pj - 1 := scanDown_le v vp t _
      split
      · exact hup
      · rename_i hc
        push_neg at hc
        exact ih _ _ _ (by omega) (by omega)

theorem apartition_fst_le (v : ℕ → ℚ) (t : List ℕ) (h : 17 ≤ t.length) :
    (apartition v t).1 ≤ t.length - 1 := by
  unfold apartition
  exact partLoop_fst_le v _ _ (by omega) _ _ 0 _ (by omega) (by omega)

theorem take_getD_cons_drop (l : List ℕ) (i : ℕ) (h : i < l.length) :
    l.take i ++ l.getD i 0 :: l.drop (i + 1) = l := by
  rw [List.getD_eq_getElem _ _ h, ← List.drop_eq_getElem_cons h,
    List.take_append_drop]

theorem insertLe_perm (v : ℕ → ℚ) (x : ℕ) :
    ∀ l : List ℕ, (insertLe v x l).Perm (x :: l) := by
  intro l
  induction l with
  | nil => exact List.Perm.refl _
  | cons a as ih =>
      rw [insertLe]
      split
      · exact List.Perm.refl _
      · exact (ih.cons a).trans (List.Perm.swap x a as)

theorem insertionFold_perm (v : ℕ → ℚ) :
    ∀ (t acc : List ℕ),
      (t.foldl (fun acc x => insertLe v x acc) acc).Perm (acc ++ t) := by
  intro t
  induction t with
  | nil => intro acc; simp
  | cons x xs ih =>
      intro acc
      rw [List.foldl_cons]
      refine (ih _).trans ?_
      refine (List.Perm.append_right xs (insertLe_perm v x acc)).trans ?_
      exact (List.perm_middle).symm

theorem insertionASort_perm (v : ℕ → ℚ) (t : List ℕ) :
    (insertionASort v t).Perm t := by
  simpa [insertionASort] using insertionFold_perm v t []

theorem siftDown_perm (v : ℕ → ℚ) (nn : ℕ) :
    ∀ (fuel : ℕ) (a : List ℕ) (tmp ii jj : ℕ), 1 ≤ ii → ii < jj →
      nn ≤ a.length →
      (siftDown v nn fuel a tmp ii jj).Perm (set1 a ii tmp) := by
  intro fuel
  induction fuel with
  | zero => intro a tmp ii jj h1 h2 h3; exact List.Perm.refl _
  | succ fuel ih =>
      intro a tmp ii jj h1 h2 h3
      rw [siftDown]
      split
      · rename_i hjn
        split
        · rename_i hlt
          have hjjn : siftChild v nn a jj ≤ nn := by
            unfold siftChild; split <;> omega
          have hiij : ii < siftChild v nn a jj := by
            unfold siftChild; split <;> omega
          refine (ih _ _ _ _ (by omega) (by omega) (by simpa [set1] using h3)).trans ?_
          unfold set1 get1
          exact set_set_getD_perm a (ii - 1) (siftChild v nn a jj - 1) tmp
            (by omega) (by omega) (by omega)
        · exact List.Perm.refl _
      · exact List.Perm.refl _

theorem set1_get1_self (a : List ℕ) (i : ℕ) : set1 a i (get1 a i) = a := by
  unfold set1 get1
  exact set_getD_self a (i - 1)

theorem buildHeapLoop_perm (v : ℕ → ℚ) (n : ℕ) :
    ∀ (l : ℕ) (a : List ℕ), n ≤ a.length →
      (buildHeapLoop v n l a).Perm a := by
  intro l
  induction l with
  | zero => intro a h; exact List.Perm.refl _
  | succ l ih =>
      intro a h
      rw [buildHeapLoop]
      have hs : (siftDown v n (n + 1) a (get1 a (l + 1)) (l + 1) (2 * (l + 1))).Perm a := by
        refine (siftDown_perm v n _ _ _ _ _ (by omega) (by omega) h).trans ?_
        rw [set1_get1_self]
      exact (ih _ (hs.length_eq.symm ▸ h)).trans hs

theorem extractLoop_perm (v : ℕ → ℚ) :
    ∀ (m : ℕ) (a : List ℕ), m ≤ a.length → (extractLoop v m a).Perm a := by
  intro m
  induction m using Nat.strong_induction_on with
  | _ m ih =>
      match m with
      | 0 => intro a h; exact List.Perm.refl _
      | 1 => intro a h; exact List.Perm.refl _
      | m + 2 =>
          intro a h
          rw [extractLoop]
          have hstep :
              (siftDown v (m + 1) (m + 2)
                (set1 a (m + 2) (get1 a 1)) (get1 a (m + 2)) 1 2).Perm a := by
            refine (siftDown_perm v (m + 1) _ _ _ _ _ (by omega) (by omega)
              (by simp [set1]; omega)).trans ?_
            unfold set1 get1
            refine (set_set_getD_perm a (m + 1) 0 (a.getD (m + 2 - 1) 0)
              (by omega) (by omega) (by omega)).trans ?_
            show (a.set (m + 1) (a.getD (m + 1) 0)).Perm a
            rw [set_getD_self]
          refine (ih (m + 1) (by omega) _ ?_).trans hstep
          rw [hstep.length_eq]
          omega

theorem aheapsort_perm (v : ℕ → ℚ) (t : List ℕ) :
    (aheapsort v t).Perm t := by
  unfold aheapsort
  have hb := buildHeapLoop_perm v t.length (t.length / 2) t (le_refl _)
  refine (extractLoop_perm v t.length _ ?_).trans hb
  rw [hb.length_eq]

theorem introLoop_perm (v : ℕ → ℚ) :
    ∀ (fuel : ℕ) (t : List ℕ) (d : ℤ) (c : Bool),
      (introLoop v fuel t d c).Perm t := by
  intro fuel
  induction fuel with
  | zero => intro t d c; exact List.Perm.refl _
  | succ fuel ih =>
      intro t d c
      rw [introLoop]
      split
      · exact aheapsort_perm v t
      · split
        · exact insertionASort_perm v t
        · rename_i hc hlen
          push_neg at hlen
          split
          all_goals
            refine List.Perm.trans (List.Perm.append (ih _ _ _)
              (List.Perm.cons _ (ih _ _ _))) ?_
            have hfst : (apartition v t).1 < (apartition v t).2.length := by
              rw [apartition_length]
              have := apartition_fst_le v t (by omega)
              omega
            rw [take_getD_cons_drop _ _ hfst]
            exact apartition_perm v t

theorem npArgsort_perm (vals : List ℚ) :
    (npArgsort vals).Perm (List.range vals.length) :=
  introLoop_perm _ _ _ _ _

theorem mem_pdNargsortDesc_lt (vals : List ℚ) (i : ℕ)
    (h : i ∈ pdNargsortDesc vals) : i < vals.length := by
  unfold pdNargsortDesc at h
  rw [List.mem_reverse, List.mem_map] at h
  obtain ⟨j, hj, rfl⟩ := h
  have hjlt : j < vals.length := by
    have := (npArgsort_perm vals.reverse).mem_iff.mp hj
    rw [List.mem_range, List.length_reverse] at this
    exact this
  have hlen : ((List.range vals.length).reverse).length = vals.length := by simp
  have : (List.range vals.length).reverse.getD j 0 ∈ (List.range vals.length).reverse := by
    rw [List.getD_eq_getElem _ _ (by omega)]
    exact List.getElem_mem _
  rw [List.mem_reverse, List.mem_range] at this
  exact this

theorem mem_sortValuesScoreDesc (rows : List RecRow) (r : RecRow)
    (h : r ∈ sortValuesScoreDesc rows) : r ∈ rows := by
  unfold sortValuesScoreDesc at h
  rw [List.mem_map] at h
  obtain ⟨i, hi, rfl⟩ := h
  have hlt : i < rows.length := by
    have := mem_pdNargsortDesc_lt _ _ hi
    simpa using this
  rw [List.getD_eq_getElem _ _ hlt]
  exact List.getElem_mem _

/-! ## Theorems

First the easy structural claims; the sorting/permutation infrastructure for
the join and ranking claims follows. -/

/-- C4: IdentifierExploder splits `authorIdsRaw` on `';'`, trims whitespace,
parses each token numerically, and silently discards unparseable tokens
without affecting the others: the row `"123; 456 ;abc"` emits exactly the
two rows for `123` and `456`, each carrying that row's (rounded) abstract
score. -/
theorem c4_explode_splits_trims_drops (s : ℚ) :
    explodeRow { ids := some "123; 456 ;abc", scoreAbs := s } =
      [{ authId := PyFloat.val 123, score := npRound3 s },
       { authId := PyFloat.val 456, score := npRound3 s }] := by
  simp +decide [explodeRow, pySplitSemi, splitSemiAux, pyStrip, pyIsSpace,
    splitSign, pyFloatOfString, underscoresOk, parseDecimalCore, fracAndRest,
    digitsToNat]

/-- C9: a row whose `'IDs'` cell is missing (NaN) or the empty string
contributes no exploded rows, and the remaining rows are processed
unchanged. -/
theorem c9_absent_or_empty_ids_zero_rows (s : ℚ) (rest : List ScoreRow) :
    explodeRow { ids := none, scoreAbs := s } = [] ∧
    explodeRow { ids := some "", scoreAbs := s } = [] ∧
    explodeRows ({ ids := none, scoreAbs := s } :: rest) = explodeRows rest ∧
    explodeRows ({ ids := some "", scoreAbs := s } :: rest) = explodeRows rest := by
  have h1 : explodeRow { ids := none, scoreAbs := s } = [] := rfl
  have h2 : explodeRow { ids := some "", scoreAbs := s } = [] := by
    simp +decide [explodeRow, pySplitSemi, splitSemiAux, pyStrip, pyIsSpace,
      splitSign, pyFloatOfString, underscoresOk, parseDecimalCore, fracAndRest,
      digitsToNat]
  exact ⟨h1, h2, by simp [explodeRows, h1], by simp [explodeRows, h2]⟩

/-- C8: every emitted IdentifiedScore carries the row's abstract score
rounded (half to even) to three decimals, and concretely a raw score of
`0.93456` is stored as exactly `0.935`. -/
theorem c8_score_rounded_to_3dp :
    (∀ (r : ScoreRow) (e : IdentifiedScore), e ∈ explodeRow r →
      e.score = npRound3 r.scoreAbs) ∧
    npRound3 (93456 / 100000) = 935 / 1000 ∧
    explodeRow { ids := some "7", scoreAbs := 93456 / 100000 } =
      [{ authId := PyFloat.val 7, score := 935 / 1000 }] := by
  refine ⟨?_, by norm_num [npRound3, rintQ], ?_⟩
  case refine_2 =>
    simp +decide [explodeRow, pySplitSemi, splitSemiAux, pyStrip, pyIsSpace,
      splitSign, pyFloatOfString, underscoresOk, parseDecimalCore, fracAndRest,
      digitsToNat]
    norm_num [npRound3, rintQ]
  intro r e he
  unfold explodeRow at he
  cases h : r.ids with
  | none => simp [h] at he
  | some s =>
      rw [h] at he
      obtain ⟨tok, -, htok⟩ := List.mem_filterMap.mp he
      obtain ⟨w, -, hw⟩ := Option.map_eq_some'.mp htok
      rw [← hw]

/-- C8 witness: the general rounding fact applied to the concrete row
`{'IDs': "7", 'Score_Abs': 0.93456}`. -/
theorem c8_score_rounded_to_3dp_witness :
    ({ authId := PyFloat.val 7, score := 935 / 1000 } : IdentifiedScore).score =
      npRound3 (({ ids := some "7", scoreAbs := 93456 / 100000 } : ScoreRow)).scoreAbs :=
  c8_score_rounded_to_3dp.1 { ids := some "7", scoreAbs := 93456 / 100000 }
    { authId := PyFloat.val 7, score := 935 / 1000 }
    (by
      simp +decide [explodeRow, pySplitSemi, splitSemiAux, pyStrip, pyIsSpace,
        splitSign, pyFloatOfString, underscoresOk, parseDecimalCore, fracAndRest,
        digitsToNat]
      norm_num [npRound3, rintQ])

/-- C3 counterexample: on an empty recommendation table `main` does not
signal a NoData condition — it renders count `0` and NaN (`none`) for the
mean, the max and the top-20 mean. -/
theorem c3_counterexample_empty_yields_nan :
    summaryMetrics [] = (0, none, none, none) := by
  rfl

/-- C3 (amended): on an empty ranked sequence the displayed statistics are
NaN (there is no NoData signal — the only guard in `main` is that
recommendations are not `None`), while on a nonempty sequence all four
metrics are numeric. -/
theorem c3_amended_empty_stats_are_nan (l : List ℚ) :
    (l = [] → summaryMetrics l = (0, none, none, none)) ∧
    (l ≠ [] → ∃ a b c, summaryMetrics l =
      (l.length, some a, some b, some c)) := by
  constructor
  · rintro rfl; rfl
  · intro hne
    cases l with
    | nil => exact absurd rfl hne
    | cons x xs =>
        refine ⟨((x :: xs).sum) / ((x :: xs).length), xs.foldl max x, ?_, ?_⟩
        · exact ((x :: xs).take 20).sum / ((x :: xs).take 20).length
        · simp [summaryMetrics, seriesMean, seriesMax, List.take]

/-- C3 witness: the amended statement applied to the two-element table with
scores `[0.9, 0.7]`. -/
theorem c3_amended_empty_stats_are_nan_witness :
    ∃ a b c, summaryMetrics [9/10, 7/10] = (2, some a, some b, some c) :=
  (c3_amended_empty_stats_are_nan [9/10, 7/10]).2 (by simp)

/-- C5: `calculate_similarity` emits exactly one ScoreRow per corpus record —
the output length equals the corpus length and the i-th output row is the
scored i-th input record. -/
theorem c5_scan_length_and_order (target : String) (corpus : List CorpusRecord) :
    (calculate_similarity target corpus).length = corpus.length ∧
    ∀ i : ℕ, (calculate_similarity target corpus).get? i =
      (corpus.get? i).map (scoreRecord target) := by
  refine ⟨List.length_map _ _, fun i => ?_⟩
  simp [calculate_similarity]

/-- A chunk list with no separator is a single chunk. -/
theorem splitSemiAux_no_semi :
    ∀ (cs cur : List Char), ';' ∉ cs →
      splitSemiAux cs cur = [cur.reverse ++ cs] := by
  intro cs
  induction cs with
  | nil => intro cur h; simp [splitSemiAux]
  | cons c cs ih =>
      intro cur h
      rw [splitSemiAux]
      rw [List.mem_cons, not_or] at h
      rw [if_neg (fun he => h.1 he.symm)]
      rw [ih (c :: cur) h.2]
      simp

/-! ## C1: failure handling of the per-field similarity computation -/

/-- C1 counterexample: a record whose abstract field makes the vectorizer
fail (every word on both sides is a stop word, so `fit_transform` raises its
empty-vocabulary `ValueError`) gets the numeric abstract score `0` — the
value meaning measured dissimilarity — while the same failure on a keyword
field yields the NaN sentinel.  The abstract score is thus silently coerced
to `0`, contradicting the claim. -/
theorem c1_counterexample_abstract_failure_is_zero :
    (scoreRecord "the of"
      { authors := "A. Author", ids := some "10",
        abstract := some "and the of", authorKw := none,
        indexKw := some "and of" }).scoreAbs = 0 ∧
    (scoreRecord "the of"
      { authors := "A. Author", ids := some "10",
        abstract := some "and the of", authorKw := none,
        indexKw := some "and of" }).scoreInd = none := by
  have h1 : fitVocab "and the of" "the of" = [] := by decide
  have h2 : fitVocab "and of" "the of" = [] := by decide
  constructor
  · show (similarity "and the of" "the of").getD 0 = 0
    rw [similarity, if_pos h1]
    rfl
  · show (some "and of").bind (fun k => similarity k "the of") = none
    show similarity "and of" "the of" = none
    rw [similarity, if_pos h2]

/-- C1 (amended): the two keyword fields map a missing cell or a failed
vectorization to the NaN sentinel, but an abstract-field failure (missing
cell or failed vectorization) is coerced to the numeric score `0`,
indistinguishable from measured dissimilarity. -/
theorem c1_amended_keyword_nan_abstract_zero (target : String) (r : CorpusRecord) :
    (r.abstract = none → (scoreRecord target r).scoreAbs = 0) ∧
    (∀ a, r.abstract = some a → fitVocab a target = [] →
      (scoreRecord target r).scoreAbs = 0) ∧
    (r.authorKw = none → (scoreRecord target r).scoreAut = none) ∧
    (∀ k, r.authorKw = some k → fitVocab k target = [] →
      (scoreRecord target r).scoreAut = none) ∧
    (r.indexKw = none → (scoreRecord target r).scoreInd = none) ∧
    (∀ k, r.indexKw = some k → fitVocab k target = [] →
      (scoreRecord target r).scoreInd = none) := by
  refine ⟨?_, ?_, ?_, ?_, ?_, ?_⟩
  · intro h; simp [scoreRecord, h]
  · intro a ha hv; simp [scoreRecord, ha, similarity, hv]
  · intro h; simp [scoreRecord, h]
  · intro k hk hv; simp [scoreRecord, hk, similarity, hv]
  · intro h; simp [scoreRecord, h]
  · intro k hk hv; simp [scoreRecord, hk, similarity, hv]

/-- C1 witness: the amended statement applied to a concrete record with a
missing abstract cell and an all-stop-word author-keyword cell. -/
theorem c1_amended_keyword_nan_abstract_zero_witness :
    (scoreRecord "the"
      { authors := "B. Author", ids := none, abstract := none,
        authorKw := some "of the", indexKw := none }).scoreAbs = 0 ∧
    (scoreRecord "the"
      { authors := "B. Author", ids := none, abstract := none,
        authorKw := some "of the", indexKw := none }).scoreAut = none ∧
    (scoreRecord "the"
      { authors := "B. Author", ids := none, abstract := none,
        authorKw := some "of the", indexKw := none }).scoreInd = none :=
  ⟨(c1_amended_keyword_nan_abstract_zero "the" _).1 rfl,
   (c1_amended_keyword_nan_abstract_zero "the" _).2.2.2.1 "of the" rfl
     (by decide),
   (c1_amended_keyword_nan_abstract_zero "the" _).2.2.2.2.1 rfl⟩

/-! ## C10: the token parse accepts all float literals; NaN key matching -/

/-- C10 counterexample: a `"nan"` token parses to a NaN identifier, and —
against the claim that it can never match a roster entry — the pandas inner
merge matches it to a roster entry whose `'Auth-ID'` is also NaN (pandas
hash-table key equality treats NaN as equal to NaN). -/
theorem c10_counterexample_nan_matches_nan_roster :
    explodeRow { ids := some "nan", scoreAbs := 1 } =
      [{ authId := PyFloat.nan, score := npRound3 1 }] ∧
    innerMerge [{ authId := PyFloat.nan, score := 1 }]
        [{ authId := PyFloat.nan, name := "X" }] =
      [{ authId := PyFloat.nan, score := 1,
         entry := { authId := PyFloat.nan, name := "X" } }] := by
  constructor
  · simp +decide [explodeRow, pySplitSemi, splitSemiAux, pyStrip, pyIsSpace,
      splitSign, pyFloatOfString, underscoresOk, parseDecimalCore, fracAndRest,
      digitsToNat]
  · decide

/-- C10 (amended): the exploder's parse is CPython `float(...)`, so every
float literal — `"123.5"`, `"1e2"`, `"inf"`, `"nan"` — parses and emits an
IdentifiedScore, and only tokens failing the float parse (such as `"abc"`)
are discarded; a semicolon-free token emits a row exactly when its parse
succeeds.  A `"nan"` token yields a NaN identifier that matches exactly the
roster entries whose identifier is also NaN (pandas merge key equality
treats NaN keys as equal), rather than never matching. -/
theorem c10_amended_float_parse_and_nan_matching :
    (pyFloatOfString "123.5" = some (PyFloat.val (247/2)) ∧
     pyFloatOfString "1e2" = some (PyFloat.val 100) ∧
     pyFloatOfString "inf" = some PyFloat.inf ∧
     pyFloatOfString "nan" = some PyFloat.nan ∧
     pyFloatOfString "abc" = none) ∧
    (∀ (tok : String) (s : ℚ), ¬ ';' ∈ tok.data →
      explodeRow { ids := some tok, scoreAbs := s } =
        ((pyFloatOfString (pyStrip tok)).map fun v =>
          [{ authId := v, score := npRound3 s }]).getD []) ∧
    (∀ (i : IdentifiedScore) (r : RosterEntry), i.authId = PyFloat.nan →
      (pdKeyEq i.authId r.authId = true ↔ r.authId = PyFloat.nan)) := by
  refine ⟨⟨?_, ?_, ?_, ?_, ?_⟩, ?_, ?_⟩
  · simp +decide [pyFloatOfString, splitSign, underscoresOk, parseDecimalCore,
      fracAndRest, digitsToNat]
    norm_num
  · simp +decide [pyFloatOfString, splitSign, underscoresOk, parseDecimalCore,
      fracAndRest, digitsToNat]
    norm_num
  · simp +decide [pyFloatOfString, splitSign]
  · simp +decide [pyFloatOfString, splitSign]
  · simp +decide [pyFloatOfString, splitSign, underscoresOk, parseDecimalCore,
      fracAndRest, digitsToNat]
  · intro tok s hsemi
    have hsplit : pySplitSemi tok = [tok] := by
      unfold pySplitSemi
      rw [splitSemiAux_no_semi tok.data [] (by simpa using hsemi)]
      simp
    simp only [explodeRow, hsplit]
    cases hp : pyFloatOfString (pyStrip tok) <;> simp [hp]
  · intro i r hnan
    rw [hnan]
    unfold pdKeyEq
    cases r.authId <;> simp

/-- C10 witness: the amended statement applied to the token `"123.5"` and to
a concrete NaN score row against a numeric roster entry. -/
theorem c10_amended_float_parse_and_nan_matching_witness :
    explodeRow { ids := some "123.5", scoreAbs := (1 : ℚ) } =
      ((pyFloatOfString (pyStrip "123.5")).map fun v =>
        [{ authId := v, score := npRound3 1 }]).getD [] ∧
    (pdKeyEq (PyFloat.nan)
        ({ authId := PyFloat.val 3, name := "Y" } : RosterEntry).authId = true ↔
      ({ authId := PyFloat.val 3, name := "Y" } : RosterEntry).authId = PyFloat.nan) :=
  ⟨c10_amended_float_parse_and_nan_matching.2.1 "123.5" 1 (by decide),
   c10_amended_float_parse_and_nan_matching.2.2
     { authId := PyFloat.nan, score := 1 } { authId := PyFloat.val 3, name := "Y" } rfl⟩

/-! ## C6: the roster join is an inner join on the identifier -/

/-- C6: every row of the RosterJoiner output carries an identifier (and
score) present in the exploded-score input and an identifier present in the
roster — non-matching identifiers on either side are dropped — and on the
spec's concrete example (scores for ids 1 and 2, roster containing only
id 1) the result is exactly the single row for id 1. -/
theorem c6_inner_join_on_identifier (scores : List IdentifiedScore)
    (roster : List RosterEntry) :
    (∀ row ∈ rosterJoin scores roster,
      (∃ s ∈ scores, s.authId = row.authId ∧ s.score = row.score) ∧
      (∃ e ∈ roster, e.authId = row.authId)) ∧
    rosterJoin
        [{ authId := PyFloat.val 1, score := 9/10 },
         { authId := PyFloat.val 2, score := 1/2 }]
        [{ authId := PyFloat.val 1, name := "A" }] =
      [{ authId := PyFloat.val 1, score := 9/10,
         entry := { authId := PyFloat.val 1, name := "A" } }] := by
  constructor
  · intro row hrow
    have hm : row ∈ innerMerge scores roster :=
      mem_sortValuesScoreDesc _ _ hrow
    unfold innerMerge at hm
    rw [List.mem_flatMap] at hm
    obtain ⟨s, hs, hrow2⟩ := hm
    rw [List.mem_map] at hrow2
    obtain ⟨e, he, rfl⟩ := hrow2
    rw [List.mem_filter] at he
    refine ⟨⟨s, hs, rfl, rfl⟩, ⟨e, he.1, ?_⟩⟩
    have := he.2
    unfold pdKeyEq at this
    simp at this
    exact this.symm
  · simp [rosterJoin, innerMerge, pdKeyEq, sortValuesScoreDesc, pdNargsortDesc,
      npArgsort, introLoop, insertionASort, insertLe, List.foldl]

/-- C6 witness: the inner-join membership property applied to the output row
of the concrete example. -/
def c6ExampleScores : List IdentifiedScore :=
  [{ authId := PyFloat.val 1, score := 9/10 },
   { authId := PyFloat.val 2, score := 1/2 }]

def c6ExampleRoster : List RosterEntry :=
  [{ authId := PyFloat.val 1, name := "A" }]

def c6ExampleRow : RecRow :=
  { authId := PyFloat.val 1, score := 9/10,
    entry := { authId := PyFloat.val 1, name := "A" } }

theorem c6_inner_join_on_identifier_witness :
    (∃ s ∈ c6ExampleScores,
      s.authId = c6ExampleRow.authId ∧ s.score = c6ExampleRow.score) ∧
    (∃ e ∈ c6ExampleRoster, e.authId = c6ExampleRow.authId) := by
  have h := c6_inner_join_on_identifier c6ExampleScores c6ExampleRoster
  refine h.1 c6ExampleRow ?_
  have h2 : rosterJoin c6ExampleScores c6ExampleRoster = [c6ExampleRow] := h.2
  rw [h2]
  exact List.mem_singleton.mpr rfl

/-! ## C7: the cosine similarity lies in `[0,1]`; self-similarity is `1` -/

theorem dotL_eq_sum_range (x : List ℝ) :
    ∀ y : List ℝ, y.length = x.length →
      dotL x y = ∑ i ∈ Finset.range x.length, x.getD i 0 * y.getD i 0 := by
  induction x with
  | nil => intro y hy; simp [dotL]
  | cons a as ih =>
      intro y hy
      cases y with
      | nil => simp at hy
      | cons b bs =>
          simp only [List.length_cons] at hy ⊢
          rw [Finset.sum_range_succ']
          unfold dotL at ih ⊢
          simp only [List.zipWith_cons_cons, List.sum_cons]
          rw [ih bs (by omega)]
          simp [add_comm]

theorem sumSq_eq_sum_range (x : List ℝ) :
    sumSq x = ∑ i ∈ Finset.range x.length, x.getD i 0 ^ 2 := by
  induction x with
  | nil => simp [sumSq]
  | cons a as ih =>
      unfold sumSq at ih ⊢
      simp only [List.map_cons, List.sum_cons, List.length_cons]
      rw [Finset.sum_range_succ']
      rw [ih]
      simp [add_comm, sq]

theorem sumSq_nonneg (x : List ℝ) : 0 ≤ sumSq x := by
  apply List.sum_nonneg
  intro a ha
  rw [List.mem_map] at ha
  obtain ⟨v, -, rfl⟩ := ha
  exact mul_self_nonneg v

theorem dotL_nonneg (x : List ℝ) :
    ∀ y : List ℝ, (∀ a ∈ x, 0 ≤ a) → (∀ a ∈ y, 0 ≤ a) → 0 ≤ dotL x y := by
  induction x with
  | nil => intro y hx hy; simp [dotL]
  | cons a as ih =>
      intro y hx hy
      cases y with
      | nil => simp [dotL]
      | cons b bs =>
          unfold dotL at ih ⊢
          simp only [List.zipWith_cons_cons, List.sum_cons]
          have h1 : 0 ≤ a * b :=
            mul_nonneg (hx a (by simp)) (hy b (by simp))
          have h2 := ih bs (fun v hv => hx v (by simp [hv]))
            (fun v hv => hy v (by simp [hv]))
          linarith

theorem dotL_self (x : List ℝ) : dotL x x = sumSq x := by
  induction x with
  | nil => rfl
  | cons a as ih =>
      unfold dotL sumSq at ih ⊢
      simp only [List.zipWith_cons_cons, List.map_cons, List.sum_cons]
      rw [ih]

theorem dotL_le_sqrt_mul_sqrt (x y : List ℝ) (h : y.length = x.length) :
    dotL x y ≤ Real.sqrt (sumSq x) * Real.sqrt (sumSq y) := by
  rw [dotL_eq_sum_range x y h, sumSq_eq_sum_range, sumSq_eq_sum_range, h]
  exact Real.sum_mul_le_sqrt_mul_sqrt _ _ _

theorem length_l2normalize (x : List ℝ) : (l2normalize x).length = x.length := by
  unfold l2normalize
  split <;> simp

theorem l2normalize_nonneg (x : List ℝ) (hx : ∀ a ∈ x, 0 ≤ a) :
    ∀ a ∈ l2normalize x, 0 ≤ a := by
  unfold l2normalize
  split
  · exact hx
  · intro a ha
    rw [List.mem_map] at ha
    obtain ⟨v, hv, rfl⟩ := ha
    exact div_nonneg (hx v hv) (Real.sqrt_nonneg _)

theorem sumSq_map_div (x : List ℝ) (c : ℝ) :
    sumSq (x.map fun v => v / c) = sumSq x / c ^ 2 := by
  induction x with
  | nil => simp [sumSq]
  | cons a as ih =>
      unfold sumSq at ih ⊢
      simp only [List.map_cons, List.sum_cons]
      rw [ih]
      field_simp
      ring

theorem sumSq_l2normalize (x : List ℝ) (h : sumSq x ≠ 0) :
    sumSq (l2normalize x) = 1 := by
  unfold l2normalize
  rw [if_neg h, sumSq_map_div, Real.sq_sqrt (sumSq_nonneg x)]
  exact div_self h

theorem sumSq_l2normalize_cases (x : List ℝ) :
    sumSq (l2normalize x) = 0 ∨ sumSq (l2normalize x) = 1 := by
  by_cases h : sumSq x = 0
  · left; unfold l2normalize; rw [if_pos h]; exact h
  · right; exact sumSq_l2normalize x h

theorem sqrt_sumSq_l2normalize_le_one (x : List ℝ) :
    Real.sqrt (sumSq (l2normalize x)) ≤ 1 := by
  rcases sumSq_l2normalize_cases x with h | h <;> rw [h] <;> simp

theorem cosine01_bounds (x y : List ℝ) (hlen : y.length = x.length)
    (hx : ∀ a ∈ x, 0 ≤ a) (hy : ∀ a ∈ y, 0 ≤ a) :
    0 ≤ cosine01 x y ∧ cosine01 x y ≤ 1 := by
  constructor
  · exact dotL_nonneg _ _ (l2normalize_nonneg x hx) (l2normalize_nonneg y hy)
  · refine le_trans (dotL_le_sqrt_mul_sqrt _ _ (by rw [length_l2normalize, length_l2normalize, hlen])) ?_
    exact mul_le_one₀ (sqrt_sumSq_l2normalize_le_one x) (Real.sqrt_nonneg _)
      (sqrt_sumSq_l2normalize_le_one y)

theorem cosine01_self (x : List ℝ) (h : sumSq x ≠ 0) : cosine01 x x = 1 := by
  unfold cosine01
  rw [dotL_self, sumSq_l2normalize x h]

theorem sumSq_pos_of_mem (x : List ℝ) (a : ℝ) (ha : a ∈ x) (hane : a ≠ 0) :
    0 < sumSq x := by
  induction x with
  | nil => simp at ha
  | cons b bs ih =>
      unfold sumSq at ih ⊢
      simp only [List.map_cons, List.sum_cons]
      rcases List.mem_cons.mp ha with rfl | hmem
      · have h1 : 0 < a * a := mul_self_pos.mpr hane
        have h2 : (0:ℝ) ≤ (bs.map fun v => v * v).sum := sumSq_nonneg bs
        linarith
      · have h1 := ih hmem
        have h2 : 0 ≤ b * b := mul_self_nonneg b
        linarith

theorem docFreq_le_two (a b t : String) : docFreq a b t ≤ 2 := by
  unfold docFreq
  split <;> split <;> omega

theorem idf_ge_one (a b : String) (t : String) : 1 ≤ idf a b t := by
  unfold idf
  have hdf : (docFreq a b t : ℝ) ≤ 2 := by
    exact_mod_cast docFreq_le_two a b t
  have hpos : (0:ℝ) < 1 + (docFreq a b t : ℝ) := by positivity
  have hratio : (1:ℝ) ≤ 3 / (1 + (docFreq a b t : ℝ)) := by
    rw [le_div_iff₀ hpos]; linarith
  have := Real.log_nonneg hratio
  linarith

theorem rawRow_nonneg (a b d : String) : ∀ v ∈ rawRow a b d, 0 ≤ v := by
  intro v hv
  unfold rawRow at hv
  rw [List.mem_map] at hv
  obtain ⟨t, -, rfl⟩ := hv
  have h1 : (0:ℝ) ≤ ((docTerms d).count t : ℝ) := by positivity
  have h2 : (0:ℝ) ≤ idf a b t := le_trans zero_le_one (idf_ge_one a b t)
  exact mul_nonneg h1 h2

theorem length_rawRow (a b d : String) :
    (rawRow a b d).length = (fitVocab a b).length := by
  unfold rawRow
  simp

theorem mem_ordInsert (le : String → String → Bool) (x t : String) :
    ∀ l : List String, t ∈ ordInsert le x l → t = x ∨ t ∈ l := by
  intro l
  induction l with
  | nil => intro h; simpa [ordInsert] using h
  | cons a as ih =>
      intro h
      rw [ordInsert] at h
      split at h
      · rcases List.mem_cons.mp h with rfl | h2
        · exact Or.inr (by simp)
        · rcases ih h2 with h3 | h3
          · exact Or.inl h3
          · exact Or.inr (by simp [h3])
      · rcases List.mem_cons.mp h with rfl | h2
        · exact Or.inl rfl
        · exact Or.inr h2

theorem mem_sortStringsFold (le : String → String → Bool) :
    ∀ (l acc : List String) (t : String),
      t ∈ l.foldl (fun acc x => ordInsert le x acc) acc → t ∈ acc ∨ t ∈ l := by
  intro l
  induction l with
  | nil => intro acc t h; exact Or.inl h
  | cons x xs ih =>
      intro acc t h
      rw [List.foldl_cons] at h
      rcases ih _ t h with h2 | h2
      · rcases mem_ordInsert le x t acc h2 with h3 | h3
        · exact Or.inr (by simp [h3])
        · exact Or.inl h3
      · exact Or.inr (by simp [h2])

theorem mem_dedupAux :
    ∀ (l acc : List String) (t : String),
      t ∈ dedupAux l acc → t ∈ l ∨ t ∈ acc := by
  intro l
  induction l with
  | nil => intro acc t h; simp [dedupAux] at h; exact Or.inr (by simpa using h)
  | cons x xs ih =>
      intro acc t h
      rw [dedupAux] at h
      split at h
      · rcases ih _ _ h with h2 | h2
        · exact Or.inl (by simp [h2])
        · exact Or.inr h2
      · rcases ih _ _ h with h2 | h2
        · exact Or.inl (by simp [h2])
        · rcases List.mem_cons.mp h2 with rfl | h3
          · exact Or.inl (by simp)
          · exact Or.inr h3

theorem mem_rawVocab_count_pos (a b t : String) (h : t ∈ rawVocab a b) :
    0 < (docTerms a).count t + (docTerms b).count t := by
  unfold rawVocab sortStrings at h
  rcases mem_sortStringsFold _ _ _ _ h with h2 | h2
  · simp at h2
  · rcases mem_dedupAux _ _ _ h2 with h3 | h3
    · rcases List.mem_append.mp h3 with h4 | h4
      · have := List.count_pos_iff.mpr h4
        omega
      · have := List.count_pos_iff.mpr h4
        omega
    · simp at h3

theorem fitVocab_subset_rawVocab (a b t : String) (h : t ∈ fitVocab a b) :
    t ∈ rawVocab a b := by
  unfold fitVocab limitFeatures at h
  split at h
  · exact h
  · exact (List.mem_filter.mp h).1

/-- C7: whenever the vectorization of the pair succeeds (`similarity` returns
a value), that cosine value lies in `[0, 1]`; and when the two strings have
the same tokens (case notwithstanding — the analyzer lowercases), the value
is exactly `1`. -/
theorem c7_cosine_in_unit_and_self_one (a b : String) (c : ℝ)
    (h : similarity a b = some c) :
    (0 ≤ c ∧ c ≤ 1) ∧ (tokenize a = tokenize b → c = 1) := by
  unfold similarity at h
  split at h
  · exact absurd h (by simp)
  · rename_i hvoc
    rw [Option.some_inj] at h
    subst h
    constructor
    · apply cosine01_bounds
      · rw [length_l2normalize, length_l2normalize, length_rawRow, length_rawRow]
      · exact l2normalize_nonneg _ (rawRow_nonneg a b a)
      · exact l2normalize_nonneg _ (rawRow_nonneg a b b)
    · intro htok
      have hterms : docTerms a = docTerms b := by
        unfold docTerms
        rw [htok]
      have hrows : rawRow a b a = rawRow a b b := by
        unfold rawRow
        rw [hterms]
      rw [← hrows]
      apply cosine01_self
      obtain ⟨t, ht⟩ := List.exists_mem_of_ne_nil _ hvoc
      have hcount : 0 < (docTerms a).count t + (docTerms b).count t :=
        mem_rawVocab_count_pos a b t (fitVocab_subset_rawVocab a b t ht)
      have hcounta : 0 < (docTerms a).count t := by
        rw [hterms] at hcount ⊢
        omega
      have hentry : ((docTerms a).count t : ℝ) * idf a b t ∈ rawRow a b a := by
        unfold rawRow
        exact List.mem_map.mpr ⟨t, ht, rfl⟩
      have hpos : (0:ℝ) < ((docTerms a).count t : ℝ) * idf a b t := by
        have h1 : (0:ℝ) < ((docTerms a).count t : ℝ) := by exact_mod_cast hcounta
        have h2 : (0:ℝ) < idf a b t := lt_of_lt_of_le zero_lt_one (idf_ge_one a b t)
        positivity
      have hs : 0 < sumSq (rawRow a b a) :=
        sumSq_pos_of_mem _ _ hentry (ne_of_gt hpos)
      have hs2 : sumSq (rawRow a b a) ≠ 0 := ne_of_gt hs
      exact fun hcontra => absurd (sumSq_l2normalize _ hs2) (by rw [hcontra]; simp)

/-- The concrete similarity value for the C7 witness pair (two spellings of
the same two-token text). -/
noncomputable def c7WitnessValue : ℝ :=
  cosine01 (l2normalize (rawRow "Neural Networks" "neural networks" "Neural Networks"))
           (l2normalize (rawRow "Neural Networks" "neural networks" "neural networks"))

/-- C7 witness: the bounds and the self-similarity statement applied to the
pair `"Neural Networks"` / `"neural networks"`, whose vectorization succeeds
and whose token lists agree after lowercasing. -/
theorem c7_cosine_in_unit_and_self_one_witness :
    (0 ≤ c7WitnessValue ∧ c7WitnessValue ≤ 1) ∧ c7WitnessValue = 1 := by
  have h : similarity "Neural Networks" "neural networks" = some c7WitnessValue := by
    unfold similarity c7WitnessValue
    rw [if_neg (by decide)]
  have hmain := c7_cosine_in_unit_and_self_one _ _ _ h
  exact ⟨hmain.1, hmain.2 (by decide)⟩

/-! ## C2: the descending sort — counterexample and amended sortedness

The remainder of the file verifies that the embedded numpy introsort sorts
(so the ranked output is descending by score), and exhibits a concrete
input on which the tie order of the output differs from the input order
(quicksort is not stable), refuting the stability half of the claim. -/

theorem getD_set_self_of_lt (l : List ℕ) (a x : ℕ) (h : a < l.length) :
    (l.set a x).getD a 0 = x := by
  rw [List.getD_eq_getElem _ _ (by simpa using h)]
  exact List.getElem_set_self _

theorem getD_set_ne (l : List ℕ) (a x k : ℕ) (h : k ≠ a) :
    (l.set a x).getD k 0 = l.getD k 0 := by
  by_cases hk : k < l.length
  · rw [List.getD_eq_getElem _ _ (by simpa using hk),
      List.getD_eq_getElem _ _ hk]
    exact List.getElem_set_ne (fun he => h he.symm) _
  · rw [List.getD_eq_default _ _ (by simpa using Nat.le_of_not_lt hk),
      List.getD_eq_default _ _ (by simpa using Nat.le_of_not_lt hk)]

theorem lswap_getD_left (l : List ℕ) (i j : ℕ) (hi : i < l.length)
    (hj : j < l.length) : (lswap l i j).getD i 0 = l.getD j 0 := by
  unfold lswap
  rw [if_pos ⟨hi, hj⟩]
  by_cases hij : i = j
  · subst hij
    rw [getD_set_self_of_lt _ _ _ (by simpa using hi)]
  · rw [getD_set_ne _ _ _ _ hij, getD_set_self_of_lt _ _ _ hi]

theorem lswap_getD_right (l : List ℕ) (i j : ℕ) (hi : i < l.length)
    (hj : j < l.length) : (lswap l i j).getD j 0 = l.getD i 0 := by
  unfold lswap
  rw [if_pos ⟨hi, hj⟩]
  rw [getD_set_self_of_lt _ _ _ (by simpa using hj)]

theorem lswap_getD_other (l : List ℕ) (i j k : ℕ) (hki : k ≠ i) (hkj : k ≠ j) :
    (lswap l i j).getD k 0 = l.getD k 0 := by
  unfold lswap
  split
  · rw [getD_set_ne _ _ _ _ hkj, getD_set_ne _ _ _ _ hki]
  · rfl

theorem lswap_length (l : List ℕ) (i j : ℕ) :
    (lswap l i j).length = l.length :=
  (lswap_perm l i j).length_eq

/-- What the upward scan guarantees: it starts at or after `k`, never leaves
`[k, k + fuel]`, every skipped position has a value below the pivot, and if
it stops before exhausting the fuel the stopping value is not below the
pivot. -/
theorem scanUpGo_spec (v : ℕ → ℚ) (vp : ℚ) (t : List ℕ) :
    ∀ (fuel k : ℕ),
      (∀ m, k ≤ m → m < scanUpGo v vp t fuel k → v (t.getD m 0) < vp) ∧
      (scanUpGo v vp t fuel k < k + fuel →
        ¬ v (t.getD (scanUpGo v vp t fuel k) 0) < vp) := by
  intro fuel
  induction fuel with
  | zero =>
      intro k
      rw [scanUpGo]
      exact ⟨fun m h1 h2 => by omega, fun h => absurd h (by omega)⟩
  | succ fuel ih =>
      intro k
      rw [scanUpGo]
      split
      · rename_i hk
        obtain ⟨ih1, ih2⟩ := ih (k + 1)
        have hge := scanUpGo_ge v vp t fuel (k + 1)
        constructor
        · intro m hm1 hm2
          rcases Nat.eq_or_lt_of_le hm1 with rfl | hlt
          · exact hk
          · exact ih1 m hlt hm2
        · intro h
          exact ih2 (by omega)
      · rename_i hk
        exact ⟨fun m hm1 hm2 => absurd hm1 (by omega), fun _ => hk⟩

theorem scanUp_spec (v : ℕ → ℚ) (vp : ℚ) (t : List ℕ) (pr k : ℕ)
    (hk : k ≤ pr) :
    k ≤ scanUp v vp t pr k ∧ scanUp v vp t pr k ≤ pr ∧
    (∀ m, k ≤ m → m < scanUp v vp t pr k → v (t.getD m 0) < vp) ∧
    (scanUp v vp t pr k < pr → ¬ v (t.getD (scanUp v vp t pr k) 0) < vp) := by
  unfold scanUp
  obtain ⟨h1, h2⟩ := scanUpGo_spec v vp t (pr - k) k
  refine ⟨scanUpGo_ge v vp t _ k, ?_, h1, ?_⟩
  · have := scanUpGo_le v vp t (pr - k) k
    omega
  · intro h
    exact h2 (by omega)

theorem scanDown_spec (v : ℕ → ℚ) (vp : ℚ) (t : List ℕ) :
    ∀ k : ℕ,
      (∀ m, scanDown v vp t k < m → m ≤ k → vp < v (t.getD m 0)) ∧
      (¬ vp < v (t.getD (scanDown v vp t k) 0) ∨ scanDown v vp t k = 0) := by
  intro k
  induction k with
  | zero =>
      rw [scanDown]
      split
      · exact ⟨fun m h1 h2 => by omega, Or.inr rfl⟩
      · rename_i h
        exact ⟨fun m h1 h2 => by omega, Or.inl h⟩
  | succ k ih =>
      rw [scanDown]
      split
      · rename_i h
        obtain ⟨ih1, ih2⟩ := ih
        have hle := scanDown_le v vp t k
        refine ⟨?_, ih2⟩
        intro m h1 h2
        rcases Nat.eq_or_lt_of_le h2 with rfl | hlt
        · exact h
        · exact ih1 m h1 (by omega)
      · rename_i h
        exact ⟨fun m h1 h2 => by omega, Or.inl h⟩

/-- The crossing-pointer loop specification.  Assuming the standard Hoare
invariants (everything up to `pi` is at most the pivot, everything from `pj`
on is at least the pivot, the pivot value sits at `pr - 1`), the loop
returns a meeting point `pi'` with everything strictly below it at most the
pivot, everything strictly above it (up to `pr`) at least the pivot, and at
least the pivot at `pi'` itself. -/
theorem partLoop_spec (v : ℕ → ℚ) (vp : ℚ) (pr : ℕ) (hpr : 16 ≤ pr) :
    ∀ (fuel : ℕ) (t : List ℕ) (pi pj : ℕ),
      pj ≤ fuel → pi < pj → pj ≤ pr - 1 →
      (∀ k, k ≤ pi → v (t.getD k 0) ≤ vp) →
      (∀ k, pj ≤ k → k ≤ pr → vp ≤ v (t.getD k 0)) →
      v (t.getD (pr - 1) 0) = vp →
      t.length = pr + 1 →
      (partLoop v vp pr fuel t pi pj).1 ≤ pr - 1 ∧
      (∀ k, k < (partLoop v vp pr fuel t pi pj).1 →
        v ((partLoop v vp pr fuel t pi pj).2.getD k 0) ≤ vp) ∧
      (∀ k, (partLoop v vp pr fuel t pi pj).1 < k → k ≤ pr →
        vp ≤ v ((partLoop v vp pr fuel t pi pj).2.getD k 0)) ∧
      v ((partLoop v vp pr fuel t pi pj).2.getD (pr - 1) 0) = vp ∧
      vp ≤ v ((partLoop v vp pr fuel t pi pj).2.getD
        (partLoop v vp pr fuel t pi pj).1 0) ∧
      (partLoop v vp pr fuel t pi pj).2.length = pr + 1 := by
  intro fuel
  induction fuel with
  | zero =>
      intro t pi pj hfuel hij hjr h3 h4 h5 h6
      omega
  | succ fuel ih =>
      intro t pi pj hfuel hij hjr h3 h4 h5 h6
      rw [partLoop]
      obtain ⟨hu1, hu2, hu3, hu4⟩ := scanUp_spec v vp t pr (pi + 1) (by omega)
      have hdle : scanDown v vp t (pj - 1) ≤ pj - 1 := scanDown_le v vp t _
      obtain ⟨hd1, hd2⟩ := scanDown_spec v vp t (pj - 1)
      have hpi2 : scanUp v vp t pr (pi + 1) ≤ pr - 1 := by
        by_contra hcon
        have heq : scanUp v vp t pr (pi + 1) = pr := by omega
        have := hu3 (pr - 1) (by omega) (by omega)
        rw [h5] at this
        exact absurd this (lt_irrefl vp)
      have hstop : vp ≤ v (t.getD (scanUp v vp t pr (pi + 1)) 0) :=
        le_of_not_lt (hu4 (by omega))
      have hstop2 : v (t.getD (scanDown v vp t (pj - 1)) 0) ≤ vp := by
        rcases hd2 with h | h
        · exact le_of_not_lt h
        · rw [h]; exact h3 0 (by omega)
      have hlow : ∀ k, k < scanUp v vp t pr (pi + 1) → v (t.getD k 0) ≤ vp := by
        intro k hk
        by_cases hkpi : k ≤ pi
        · exact h3 k hkpi
        · exact le_of_lt (hu3 k (by omega) hk)
      have hhigh : ∀ k, scanDown v vp t (pj - 1) < k → k ≤ pr →
          vp ≤ v (t.getD k 0) := by
        intro k hk1 hk2
        by_cases hkpj : pj ≤ k
        · exact h4 k hkpj hk2
        · exact le_of_lt (hd1 k hk1 (by omega))
      split
      · rename_i hexit
        exact ⟨hpi2, hlow, fun k hk1 hk2 => hhigh k (by omega) hk2, h5, hstop, h6⟩
      · rename_i hcont
        push_neg at hcont
        have hjlen : scanDown v vp t (pj - 1) < t.length := by omega
        have hilen : scanUp v vp t pr (pi + 1) < t.length := by omega
        refine ih _ _ _ (by omega) hcont (by omega) ?_ ?_ ?_ ?_
        · intro k hk
          rcases Nat.eq_or_lt_of_le hk with rfl | hlt
          · rw [lswap_getD_left _ _ _ hilen hjlen]
            exact hstop2
          · rw [lswap_getD_other _ _ _ _ (by omega) (by omega)]
            exact hlow k hlt
        · intro k hk1 hk2
          rcases Nat.eq_or_lt_of_le hk1 with heq | hlt
          · rw [← heq, lswap_getD_right _ _ _ hilen hjlen]
            exact hstop
          · rw [lswap_getD_other _ _ _ _ (by omega) (by omega)]
            exact hhigh k hlt hk2
        · rw [lswap_getD_other _ _ _ _ (by omega) (by omega)]
          exact h5
        · rw [lswap_length]
          exact h6

theorem condSwapLe_length (v : ℕ → ℚ) (a b : ℕ) (u : List ℕ) :
    (condSwapLe v a b u).length = u.length :=
  (condSwapLe_perm v a b u).length_eq

theorem condSwapLe_le (v : ℕ → ℚ) (a b : ℕ) (u : List ℕ) (hab : a ≠ b)
    (ha : a < u.length) (hb : b < u.length) :
    v ((condSwapLe v a b u).getD a 0) ≤ v ((condSwapLe v a b u).getD b 0) := by
  unfold condSwapLe
  split
  · rename_i hc
    rw [lswap_getD_right _ _ _ hb ha, lswap_getD_left _ _ _ hb ha]
    exact le_of_lt hc
  · rename_i hc
    exact le_of_not_lt hc

theorem condSwapLe_getD_other (v : ℕ → ℚ) (a b k : ℕ) (u : List ℕ)
    (hka : k ≠ a) (hkb : k ≠ b) :
    (condSwapLe v a b u).getD k 0 = u.getD k 0 := by
  unfold condSwapLe
  split
  · exact lswap_getD_other _ _ _ _ hkb hka
  · rfl

/-- The two touched positions of a conditional swap hold the same two values
in one of the two orders. -/
theorem condSwapLe_pair (v : ℕ → ℚ) (a b : ℕ) (u : List ℕ)
    (ha : a < u.length) (hb : b < u.length) :
    ((condSwapLe v a b u).getD a 0 = u.getD a 0 ∧
     (condSwapLe v a b u).getD b 0 = u.getD b 0) ∨
    ((condSwapLe v a b u).getD a 0 = u.getD b 0 ∧
     (condSwapLe v a b u).getD b 0 = u.getD a 0) := by
  unfold condSwapLe
  split
  · exact Or.inr ⟨lswap_getD_right _ _ _ hb ha, lswap_getD_left _ _ _ hb ha⟩
  · exact Or.inl ⟨rfl, rfl⟩

/-- The median-of-three property: after `med3` the first, middle and last
values of the segment are mutually ordered. -/
theorem med3_spec (v : ℕ → ℚ) (t : List ℕ) (h : 17 ≤ t.length) :
    v ((med3 v t).getD 0 0) ≤ v ((med3 v t).getD ((t.length - 1) / 2) 0) ∧
    v ((med3 v t).getD ((t.length - 1) / 2) 0) ≤
      v ((med3 v t).getD (t.length - 1) 0) ∧
    (med3 v t).length = t.length := by
  have hpm0 : (t.length - 1) / 2 ≠ 0 := by omega
  have hpmr : (t.length - 1) / 2 ≠ t.length - 1 := by omega
  have h0r : (0 : ℕ) ≠ t.length - 1 := by omega
  unfold med3
  have hl1 : (condSwapLe v 0 ((t.length - 1) / 2) t).length = t.length :=
    condSwapLe_length _ _ _ _
  have hl2 : (condSwapLe v ((t.length - 1) / 2) (t.length - 1)
      (condSwapLe v 0 ((t.length - 1) / 2) t)).length = t.length := by
    rw [condSwapLe_length, hl1]
  have h12 :
      v ((condSwapLe v 0 ((t.length - 1) / 2) t).getD 0 0) ≤
      v ((condSwapLe v 0 ((t.length - 1) / 2) t).getD ((t.length - 1) / 2) 0) :=
    condSwapLe_le v _ _ t (Ne.symm hpm0) (by omega) (by omega)
  have h23 :
      v ((condSwapLe v ((t.length - 1) / 2) (t.length - 1)
        (condSwapLe v 0 ((t.length - 1) / 2) t)).getD ((t.length - 1) / 2) 0) ≤
      v ((condSwapLe v ((t.length - 1) / 2) (t.length - 1)
        (condSwapLe v 0 ((t.length - 1) / 2) t)).getD (t.length - 1) 0) :=
    condSwapLe_le v _ _ _ hpmr (by omega) (by omega)
  -- stage 2 does not touch position 0
  have h20 :
      (condSwapLe v ((t.length - 1) / 2) (t.length - 1)
        (condSwapLe v 0 ((t.length - 1) / 2) t)).getD 0 0 =
      (condSwapLe v 0 ((t.length - 1) / 2) t).getD 0 0 :=
    condSwapLe_getD_other v _ _ 0 _ (Ne.symm hpm0) h0r
  -- after stage 2, position 0 is at most position pr
  have h02r :
      v ((condSwapLe v ((t.length - 1) / 2) (t.length - 1)
        (condSwapLe v 0 ((t.length - 1) / 2) t)).getD 0 0) ≤
      v ((condSwapLe v ((t.length - 1) / 2) (t.length - 1)
        (condSwapLe v 0 ((t.length - 1) / 2) t)).getD (t.length - 1) 0) := by
    rcases condSwapLe_pair v ((t.length - 1) / 2) (t.length - 1)
      (condSwapLe v 0 ((t.length - 1) / 2) t) (by omega) (by omega) with
      ⟨hpm, hr⟩ | ⟨hpm, hr⟩
    · rw [h20, hr]
      refine le_trans h12 ?_
      have := condSwapLe_le v ((t.length - 1) / 2) (t.length - 1)
        (condSwapLe v 0 ((t.length - 1) / 2) t) hpmr (by omega) (by omega)
      rw [hpm, hr] at this
      exact this
    · rw [h20, hr]
      exact h12
  -- stage 3
  refine ⟨condSwapLe_le v 0 ((t.length - 1) / 2) _ (Ne.symm hpm0)
    (by omega) (by omega), ?_, by rw [condSwapLe_length, hl2]⟩
  have h3r :
      (condSwapLe v 0 ((t.length - 1) / 2)
        (condSwapLe v ((t.length - 1) / 2) (t.length - 1)
          (condSwapLe v 0 ((t.length - 1) / 2) t))).getD (t.length - 1) 0 =
      (condSwapLe v ((t.length - 1) / 2) (t.length - 1)
        (condSwapLe v 0 ((t.length - 1) / 2) t)).getD (t.length - 1) 0 :=
    condSwapLe_getD_other v _ _ _ _ (Ne.symm h0r) (Ne.symm hpmr)
  rw [h3r]
  rcases condSwapLe_pair v 0 ((t.length - 1) / 2)
    (condSwapLe v ((t.length - 1) / 2) (t.length - 1)
      (condSwapLe v 0 ((t.length - 1) / 2) t)) (by omega) (by omega) with
    ⟨h0, hpm⟩ | ⟨h0, hpm⟩
  · rw [hpm]
    exact h23
  · rw [hpm]
    exact h02r

/-- The partition specification: the returned meeting position carries the
pivot value, everything before it is at most the pivot, everything after it
is at least the pivot. -/
theorem apartition_spec (v : ℕ → ℚ) (t : List ℕ) (h : 17 ≤ t.length) :
    (apartition v t).1 < (apartition v t).2.length ∧
    (∀ k, k < (apartition v t).1 →
      v ((apartition v t).2.getD k 0) ≤
      v ((apartition v t).2.getD (apartition v t).1 0)) ∧
    (∀ k, (apartition v t).1 < k → k < (apartition v t).2.length →
      v ((apartition v t).2.getD (apartition v t).1 0) ≤
      v ((apartition v t).2.getD k 0)) := by
  obtain ⟨hm1, hm2, hmlen⟩ := med3_spec v t h
  unfold apartition
  dsimp only
  set pr := t.length - 1 with hprdef
  set pm := pr / 2 with hpmdef
  set t3 := med3 v t with ht3def
  set vp := v (t3.getD pm 0) with hvpdef
  set t4 := lswap t3 pm (pr - 1) with ht4def
  have hprge : 16 ≤ pr := by omega
  have ht3len : t3.length = pr + 1 := by omega
  have hpmne : pm ≠ pr - 1 := by omega
  have ht4len : t4.length = pr + 1 := by rw [ht4def, lswap_length]; exact ht3len
  have ht4piv : v (t4.getD (pr - 1) 0) = vp := by
    rw [ht4def, lswap_getD_right _ _ _ (by omega) (by omega)]
  have hspec := partLoop_spec v vp pr hprge pr t4 0 (pr - 1)
    (by omega) (by omega) (le_refl _)
    (by
      intro k hk
      have hk0 : k = 0 := by omega
      subst hk0
      rw [ht4def, lswap_getD_other _ _ _ _ (by omega) (by omega)]
      exact hm1)
    (by
      intro k hk1 hk2
      rcases Nat.eq_or_lt_of_le hk1 with heq | hlt
      · rw [← heq, ht4piv]
      · have hkpr : k = pr := by omega
        subst hkpr
        rw [ht4def, lswap_getD_other _ _ _ _ (by omega) (by omega)]
        exact hm2)
    ht4piv ht4len
  obtain ⟨hp1, hp2, hp3, hp4, hp5, hp6⟩ := hspec
  set pt := partLoop v vp pr pr t4 0 (pr - 1) with hptdef
  have hlen6 : (lswap pt.2 pt.1 (pr - 1)).length = pr + 1 := by
    rw [lswap_length]; exact hp6
  have hpivot : (lswap pt.2 pt.1 (pr - 1)).getD pt.1 0 = pt.2.getD (pr - 1) 0 :=
    lswap_getD_left _ _ _ (by omega) (by omega)
  refine ⟨by omega, ?_, ?_⟩
  · intro k hk
    have hkval : v ((lswap pt.2 pt.1 (pr - 1)).getD k 0) ≤ vp := by
      rw [lswap_getD_other _ _ _ _ (by omega) (by omega)]
      exact hp2 k hk
    rw [hpivot, hp4]
    exact hkval
  · intro k hk1 hk2
    rw [hpivot, hp4]
    by_cases hkpr : k = pr - 1
    · subst hkpr
      rw [lswap_getD_right _ _ _ (by omega) (by omega)]
      exact hp5
    · rw [lswap_getD_other _ _ _ _ (by omega) hkpr]
      exact hp3 k hk1 (by omega)

theorem insertLe_sorted (v : ℕ → ℚ) (x : ℕ) :
    ∀ l : List ℕ, l.Pairwise (fun p q => v p ≤ v q) →
      (insertLe v x l).Pairwise (fun p q => v p ≤ v q) := by
  intro l
  induction l with
  | nil => intro h; simp [insertLe]
  | cons a as ih =>
      intro h
      obtain ⟨ha, has⟩ := List.pairwise_cons.mp h
      rw [insertLe]
      split
      · rename_i hc
        refine List.pairwise_cons.mpr ⟨?_, h⟩
        intro b hb
        rcases List.mem_cons.mp hb with rfl | hbs
        · exact le_of_lt hc
        · exact le_trans (le_of_lt hc) (ha b hbs)
      · rename_i hc
        refine List.pairwise_cons.mpr ⟨?_, ih has⟩
        intro b hb
        rcases List.mem_cons.mp ((insertLe_perm v x as).mem_iff.mp hb) with rfl | h2
        · exact le_of_not_lt hc
        · exact ha b h2

theorem insertionFold_sorted (v : ℕ → ℚ) :
    ∀ (t acc : List ℕ), acc.Pairwise (fun p q => v p ≤ v q) →
      (t.foldl (fun acc x => insertLe v x acc) acc).Pairwise
        (fun p q => v p ≤ v q) := by
  intro t
  induction t with
  | nil => intro acc h; exact h
  | cons x xs ih =>
      intro acc h
      rw [List.foldl_cons]
      exact ih _ (insertLe_sorted v x acc h)

theorem insertionASort_sorted (v : ℕ → ℚ) (t : List ℕ) :
    (insertionASort v t).Pairwise (fun p q => v p ≤ v q) :=
  insertionFold_sorted v t [] (by simp)

/-! ### The heapsort of npysort -/

/-- `p` lies in the (1-based) subtree rooted at `q`: some number of halvings
of `p` reaches `q`. -/
def desc (q p : ℕ) : Prop := ∃ m : ℕ, p / 2 ^ m = q

theorem desc_refl (q : ℕ) : desc q q := ⟨0, by simp⟩

theorem desc_le (q p : ℕ) (h : desc q p) : q ≤ p := by
  obtain ⟨m, rfl⟩ := h
  exact Nat.div_le_self _ _

theorem desc_parent_or_eq (q p : ℕ) (h : desc q p) :
    p = q ∨ desc q (p / 2) := by
  obtain ⟨m, hm⟩ := h
  cases m with
  | zero => left; simpa using hm
  | succ m =>
      right
      refine ⟨m, ?_⟩
      rw [← hm, pow_succ]
      rw [Nat.div_div_eq_div_mul]
      ring_nf

theorem desc_up (j p ii : ℕ) (h : desc j p) (hj : j / 2 = ii) :
    desc ii p := by
  obtain ⟨m, hm⟩ := h
  refine ⟨m + 1, ?_⟩
  rw [pow_succ, ← Nat.div_div_eq_div_mul, hm, hj]

theorem not_desc_of_lt (q p : ℕ) (h : p < q) : ¬ desc q p :=
  fun hd => absurd (desc_le q p hd) (by omega)

theorem set1_length (a : List ℕ) (i x : ℕ) : (set1 a i x).length = a.length := by
  unfold set1
  simp

theorem get1_set1_self (a : List ℕ) (i x : ℕ) (h1 : 1 ≤ i)
    (h2 : i ≤ a.length) : get1 (set1 a i x) i = x := by
  unfold get1 set1
  exact getD_set_self_of_lt _ _ _ (by omega)

theorem get1_set1_ne (a : List ℕ) (i x k : ℕ) (h1 : 1 ≤ i) (h2 : 1 ≤ k)
    (h : k ≠ i) : get1 (set1 a i x) k = get1 a k := by
  unfold get1 set1
  exact getD_set_ne _ _ _ _ (by omega)

theorem siftChild_cases (v : ℕ → ℚ) (nn : ℕ) (a : List ℕ) (jj : ℕ) :
    siftChild v nn a jj = jj ∨ siftChild v nn a jj = jj + 1 := by
  unfold siftChild
  split <;> simp

theorem siftChild_le (v : ℕ → ℚ) (nn : ℕ) (a : List ℕ) (jj : ℕ)
    (h : jj ≤ nn) : siftChild v nn a jj ≤ nn := by
  unfold siftChild
  split <;> omega

theorem siftChild_dominates (v : ℕ → ℚ) (nn : ℕ) (a : List ℕ) (jj : ℕ)
    (hjnn : jj ≤ nn) :
    ∀ s, (s = jj ∨ s = jj + 1) → s ≤ nn →
      v (get1 a s) ≤ v (get1 a (siftChild v nn a jj)) := by
  intro s hs hsnn
  unfold siftChild
  split
  · rename_i hc
    rcases hs with rfl | rfl
    · exact le_of_lt hc.2
    · exact le_refl _
  · rename_i hc
    rcases hs with rfl | rfl
    · exact le_refl _
    · push_neg at hc
      exact le_of_not_lt (by
        intro hlt
        exact absurd (hc (by omega)) (by simpa using hlt))

/-- The sift specification.  Starting from an array that satisfies the heap
inequality for every parent strictly below the hole `ii`, sifting `tmp` into
the hole yields:
(1) the heap inequality for every parent at or below `ii`;
(2) positions outside the subtree of `ii` unchanged;
(3) positions beyond `nn` unchanged;
(4) the value finally at `ii` is at most `tmp` or equal to an original
child value of the hole — in particular at most the original parent-to-be. -/
theorem siftDown_spec (v : ℕ → ℚ) (nn : ℕ) :
    ∀ (fuel : ℕ) (a : List ℕ) (tmp ii jj : ℕ),
      1 ≤ ii → ii ≤ nn → jj = 2 * ii → nn ≤ a.length →
      nn + 1 ≤ jj + fuel →
      (∀ k, 2 ≤ k → k ≤ nn → ii < k / 2 →
        v (get1 a k) ≤ v (get1 a (k / 2))) →
      (∀ k, 2 ≤ k → k ≤ nn → ii ≤ k / 2 →
        v (get1 (siftDown v nn fuel a tmp ii jj) k) ≤
        v (get1 (siftDown v nn fuel a tmp ii jj) (k / 2))) ∧
      (∀ k, 1 ≤ k → ¬ desc ii k →
        get1 (siftDown v nn fuel a tmp ii jj) k = get1 a k) ∧
      (∀ k, nn < k → get1 (siftDown v nn fuel a tmp ii jj) k = get1 a k) ∧
      (v (get1 (siftDown v nn fuel a tmp ii jj) ii) ≤ v tmp ∨
        ∃ c, (c = jj ∨ c = jj + 1) ∧ c ≤ nn ∧
          v (get1 (siftDown v nn fuel a tmp ii jj) ii) = v (get1 a c)) := by
  intro fuel
  induction fuel with
  | zero =>
      intro a tmp ii jj h1 h2 hjj hlen hfuel hH1
      have hjnn : nn < jj := by omega
      rw [siftDown]
      have hself : get1 (set1 a ii tmp) ii = tmp :=
        get1_set1_self a ii tmp h1 (by omega)
      refine ⟨?_, ?_, ?_, Or.inl (by rw [hself])⟩
      · intro k hk2 hknn hkd
        have hkne : k ≠ ii := by omega
        have hkdne : k / 2 ≠ ii := by omega
        rw [get1_set1_ne a ii tmp k h1 (by omega) hkne,
          get1_set1_ne a ii tmp (k / 2) h1 (by omega) hkdne]
        exact hH1 k hk2 hknn (by omega)
      · intro k hk1 hkd
        exact get1_set1_ne a ii tmp k h1 hk1
          (fun he => hkd (he ▸ desc_refl ii))
      · intro k hk
        exact get1_set1_ne a ii tmp k h1 (by omega) (by omega)
  | succ fuel ih =>
      intro a tmp ii jj h1 h2 hjj hlen hfuel hH1
      rw [siftDown]
      split
      · rename_i hjnn
        split
        · rename_i hdesc
          -- descend: the hole moves to the larger child
          set j := siftChild v nn a jj with hjdef
          have hj12 : j = jj ∨ j = jj + 1 := siftChild_cases v nn a jj
          have hjnn2 : j ≤ nn := siftChild_le v nn a jj hjnn
          have hjdiv : j / 2 = ii := by omega
          have hjge : 2 * ii ≤ j := by omega
          have hjgt : ii < j := by omega
          have hsib := siftChild_dominates v nn a jj hjnn
          set a1 := set1 a ii (get1 a j) with ha1def
          have ha1len : nn ≤ a1.length := by rw [ha1def, set1_length]; exact hlen
          have ha1get : ∀ k, 1 ≤ k → k ≠ ii → get1 a1 k = get1 a k := by
            intro k hk1 hkne
            rw [ha1def]
            exact get1_set1_ne a ii _ k h1 hk1 hkne
          have hrecH1 : ∀ k, 2 ≤ k → k ≤ nn → j < k / 2 →
              v (get1 a1 k) ≤ v (get1 a1 (k / 2)) := by
            intro k hk2 hknn hkd
            rw [ha1get k (by omega) (by omega),
              ha1get (k / 2) (by omega) (by omega)]
            exact hH1 k hk2 hknn (by omega)
          obtain ⟨R1, R2, R4, R3⟩ := ih a1 tmp j (2 * j) (by omega) hjnn2 rfl
            ha1len (by omega) hrecH1
          have hii_unch : get1 (siftDown v nn fuel a1 tmp j (2 * j)) ii =
              get1 a1 ii :=
            R2 ii h1 (not_desc_of_lt j ii hjgt)
          have hii_eq : get1 (siftDown v nn fuel a1 tmp j (2 * j)) ii =
              get1 a j := by
            rw [hii_unch, ha1def, get1_set1_self a ii _ h1 (by omega)]
          have hroot_le : v (get1 (siftDown v nn fuel a1 tmp j (2 * j)) j) ≤
              v (get1 a j) := by
            rcases R3 with hl | ⟨c, hc12, hcnn, hceq⟩
            · exact le_trans hl (le_of_lt hdesc)
            · rw [hceq, ha1get c (by omega) (by omega)]
              have hcdiv : c / 2 = j := by omega
              have := hH1 c (by omega) hcnn (by omega)
              rw [hcdiv] at this
              exact this
          refine ⟨?_, ?_, ?_, ?_⟩
          · intro k hk2 hknn hkd
            by_cases hkj : j ≤ k / 2
            · exact R1 k hk2 hknn hkj
            · push_neg at hkj
              by_cases hkii : k / 2 = ii
              · -- k is a child of the original hole
                have hk_cases : k = jj ∨ k = jj + 1 := by omega
                rw [hkii, hii_eq]
                by_cases hkjj : k = j
                · rw [hkjj]
                  exact hroot_le
                · have hknd : ¬ desc j k := by
                    intro hd
                    rcases desc_parent_or_eq j k hd with heq | hd2
                    · exact hkjj heq
                    · rw [hkii] at hd2
                      exact absurd (desc_le j ii hd2) (by omega)
                  rw [R2 k (by omega) hknd, ha1get k (by omega) (by omega)]
                  exact hsib k hk_cases hknn
              · -- pair strictly between the holes: untouched
                have hkdge : ii < k / 2 := by omega
                have hknd : ¬ desc j k := by
                  intro hd
                  rcases desc_parent_or_eq j k hd with heq | hd2
                  · rw [heq] at hkj
                    exact absurd hjdiv (by omega)
                  · exact absurd (desc_le j _ hd2) (by omega)
                have hkdnd : ¬ desc j (k / 2) := not_desc_of_lt j _ hkj
                rw [R2 k (by omega) hknd, R2 (k / 2) (by omega) hkdnd,
                  ha1get k (by omega) (by omega),
                  ha1get (k / 2) (by omega) (by omega)]
                exact hH1 k hk2 hknn hkdge
          · intro k hk1 hkd
            have hknd : ¬ desc j k := fun hd => hkd (desc_up j k ii hd hjdiv)
            rw [R2 k hk1 hknd, ha1get k hk1 (fun he => hkd (he ▸ desc_refl ii))]
          · intro k hk
            rw [R4 k hk, ha1get k (by omega) (by omega)]
          · exact Or.inr ⟨j, hj12, hjnn2, by rw [hii_eq]⟩
        · rename_i hstop
          push_neg at hstop
          set j := siftChild v nn a jj with hjdef
          have hsib := siftChild_dominates v nn a jj hjnn
          have hself : get1 (set1 a ii tmp) ii = tmp :=
            get1_set1_self a ii tmp h1 (by omega)
          refine ⟨?_, ?_, ?_, Or.inl (by rw [hself])⟩
          · intro k hk2 hknn hkd
            by_cases hkii : k / 2 = ii
            · have hk_cases : k = jj ∨ k = jj + 1 := by omega
              rw [hkii, hself,
                get1_set1_ne a ii tmp k h1 (by omega) (by omega)]
              exact le_trans (hsib k hk_cases hknn) hstop
            · rw [get1_set1_ne a ii tmp k h1 (by omega) (by omega),
                get1_set1_ne a ii tmp (k / 2) h1 (by omega) hkii]
              exact hH1 k hk2 hknn (by omega)
          · intro k hk1 hkd
            exact get1_set1_ne a ii tmp k h1 hk1
              (fun he => hkd (he ▸ desc_refl ii))
          · intro k hk
            exact get1_set1_ne a ii tmp k h1 (by omega) (by omega)
      · rename_i hjnn
        push_neg at hjnn
        have hself : get1 (set1 a ii tmp) ii = tmp :=
          get1_set1_self a ii tmp h1 (by omega)
        refine ⟨?_, ?_, ?_, Or.inl (by rw [hself])⟩
        · intro k hk2 hknn hkd
          have hkne : k ≠ ii := by omega
          have hkdne : k / 2 ≠ ii := by omega
          rw [get1_set1_ne a ii tmp k h1 (by omega) hkne,
            get1_set1_ne a ii tmp (k / 2) h1 (by omega) hkdne]
          exact hH1 k hk2 hknn (by omega)
        · intro k hk1 hkd
          exact get1_set1_ne a ii tmp k h1 hk1
            (fun he => hkd (he ▸ desc_refl ii))
        · intro k hk
          exact get1_set1_ne a ii tmp k h1 (by omega) (by omega)

theorem siftDown_length (v : ℕ → ℚ) (nn fuel : ℕ) (a : List ℕ)
    (tmp ii jj : ℕ) (h1 : 1 ≤ ii) (h2 : ii < jj) (h3 : nn ≤ a.length) :
    (siftDown v nn fuel a tmp ii jj).length = a.length := by
  rw [(siftDown_perm v nn fuel a tmp ii jj h1 h2 h3).length_eq, set1_length]

/-- The heapify phase: once the loop counter reaches `l`, every
parent position strictly above `l` satisfies the heap inequality; running
it down to `0` yields a full heap on `1..n`. -/
theorem buildHeapLoop_spec (v : ℕ → ℚ) (n : ℕ) :
    ∀ (l : ℕ) (a : List ℕ), n ≤ a.length → 2 * l ≤ n →
      (∀ k, 2 ≤ k → k ≤ n → l < k / 2 →
        v (get1 a k) ≤ v (get1 a (k / 2))) →
      ∀ k, 2 ≤ k → k ≤ n →
        v (get1 (buildHeapLoop v n l a) k) ≤
        v (get1 (buildHeapLoop v n l a) (k / 2)) := by
  intro l
  induction l with
  | zero =>
      intro a hlen hl hinv k hk2 hkn
      rw [buildHeapLoop]
      exact hinv k hk2 hkn (by omega)
  | succ l ih =>
      intro a hlen hl hinv k hk2 hkn
      rw [buildHeapLoop]
      obtain ⟨S1, S2, S4, S3⟩ := siftDown_spec v n (n + 1) a
        (get1 a (l + 1)) (l + 1) (2 * (l + 1)) (by omega) (by omega) rfl
        hlen (by omega) (fun k hk2 hkn hkd => hinv k hk2 hkn (by omega))
      refine ih _ ?_ (by omega) (fun k hk2 hkn hkd => S1 k hk2 hkn (by omega))
        k hk2 hkn
      rw [siftDown_length v n (n + 1) a _ _ _ (by omega) (by omega) hlen]
      exact hlen

/-- In a heap every element is at most the root. -/
theorem heap_root_ge (v : ℕ → ℚ) (n : ℕ) (a : List ℕ)
    (hheap : ∀ k, 2 ≤ k → k ≤ n →
      v (get1 a k) ≤ v (get1 a (k / 2))) :
    ∀ i, 1 ≤ i → i ≤ n → v (get1 a i) ≤ v (get1 a 1) := by
  intro i
  induction i using Nat.strong_induction_on with
  | _ i ih =>
      intro h1 h2
      rcases Nat.eq_or_lt_of_le h1 with heq | hgt
      · rw [← heq]
      · refine le_trans (hheap i (by omega) h2) (ih (i / 2) (by omega)
          (by omega) (by omega))

/-- A permutation of lists with equal suffixes restricts to a permutation of
the complementary takes. -/
theorem perm_take_of_perm_of_drop_eq (a b : List ℕ) (j : ℕ)
    (hperm : a.Perm b) (hdrop : a.drop j = b.drop j) :
    (a.take j).Perm (b.take j) := by
  rw [List.perm_iff_count]
  intro x
  have ha : a.take j ++ a.drop j = a := List.take_append_drop j a
  have hb : b.take j ++ b.drop j = b := List.take_append_drop j b
  have hca : List.count x (a.take j) + List.count x (a.drop j) =
      List.count x a := by
    rw [← List.count_append, ha]
  have hcb : List.count x (b.take j) + List.count x (b.drop j) =
      List.count x b := by
    rw [← List.count_append, hb]
  have hc : List.count x a = List.count x b := hperm.count_eq x
  rw [hdrop] at hca
  omega

/-- Every element of `l.take n` satisfies a property that holds at every
position below `n`. -/
theorem forall_mem_take (l : List ℕ) (n : ℕ) (P : ℕ → Prop)
    (h : ∀ i (hi : i < l.length), i < n → P (l[i])) :
    ∀ x ∈ l.take n, P x := by
  intro x hx
  obtain ⟨i, hi, heq⟩ := List.mem_iff_getElem.mp hx
  have hlt : i < l.length := by
    have := List.length_take n l
    omega
  have : (l.take n)[i] = l[i] := List.getElem_take l
  rw [← heq, this]
  exact h i hlt (by
    have := List.length_take n l
    omega)

set_option maxHeartbeats 2000000 in
/-- The extraction phase: at each step the heap root (the maximum) moves to
the end of the shrinking heap region, so the final array is ascending. -/
theorem extractLoop_spec (v : ℕ → ℚ) (N : ℕ) :
    ∀ (m : ℕ) (a : List ℕ), a.length = N → m ≤ N →
      (∀ k, 2 ≤ k → k ≤ m → v (get1 a k) ≤ v (get1 a (k / 2))) →
      (∀ k1 k2, m < k1 → k1 < k2 → k2 ≤ N →
        v (get1 a k1) ≤ v (get1 a k2)) →
      (∀ i k, 1 ≤ i → i ≤ m → m < k → k ≤ N →
        v (get1 a i) ≤ v (get1 a k)) →
      ∀ k1 k2, 1 ≤ k1 → k1 < k2 → k2 ≤ N →
        v (get1 (extractLoop v m a) k1) ≤ v (get1 (extractLoop v m a) k2) := by
  intro m
  induction m using Nat.strong_induction_on with
  | _ m ih =>
      match m with
      | 0 =>
          intro a hlen hm hheap htail hdom k1 k2 h1 h2 h3
          rw [extractLoop]
          exact htail k1 k2 (by omega) h2 h3
      | 1 =>
          intro a hlen hm hheap htail hdom k1 k2 h1 h2 h3
          rw [extractLoop]
          rcases Nat.eq_or_lt_of_le h1 with heq | hgt
          · rw [← heq]
            exact hdom 1 k2 (by omega) (by omega) (by omega) h3
          · exact htail k1 k2 (by omega) h2 h3
      | m + 2 =>
          intro a hlen hm hheap htail hdom k1 k2 h1 h2 h3
          rw [extractLoop]
          set tmp := get1 a (m + 2) with htmpdef
          set a1 := set1 a (m + 2) (get1 a 1) with ha1def
          have ha1len : a1.length = N := by rw [ha1def, set1_length, hlen]
          have ha1small : ∀ k, 1 ≤ k → k ≤ m + 1 → get1 a1 k = get1 a k := by
            intro k hk1 hk2
            rw [ha1def]
            exact get1_set1_ne a (m + 2) _ k (by omega) hk1 (by omega)
          obtain ⟨S1, S2, S4, S3⟩ := siftDown_spec v (m + 1) (m + 2) a1 tmp 1 2
            (by omega) (by omega) rfl (by omega) (by omega)
            (by
              intro k hk2 hkn hkd
              rw [ha1small k (by omega) hkn, ha1small (k / 2) (by omega) (by omega)]
              exact hheap k hk2 (by omega))
          set a2 := siftDown v (m + 1) (m + 2) a1 tmp 1 2 with ha2def
          have hperm : a2.Perm (set1 a1 1 tmp) :=
            siftDown_perm v (m + 1) (m + 2) a1 tmp 1 2 (by omega) (by omega)
              (by omega)
          have ha2len : a2.length = N := by
            rw [hperm.length_eq, set1_length, ha1len]
          have ha2_m2 : get1 a2 (m + 2) = get1 a 1 := by
            rw [S4 (m + 2) (by omega), ha1def,
              get1_set1_self a (m + 2) _ (by omega) (by omega)]
          have ha2_gt : ∀ k, m + 2 < k → get1 a2 k = get1 a k := by
            intro k hk
            rw [S4 k (by omega), ha1def,
              get1_set1_ne a (m + 2) _ k (by omega) (by omega) (by omega)]
          have hroot_ge := heap_root_ge v (m + 2) a hheap
          -- every value in the shrunk heap region is at most the old root
          have hdropeq : a2.drop (m + 1) = (set1 a1 1 tmp).drop (m + 1) := by
            apply List.ext_getElem
            · rw [List.length_drop, List.length_drop, ha2len, set1_length, ha1len]
            · intro i hi1 hi2
              rw [List.getElem_drop, List.getElem_drop]
              have hbound : m + 1 + i < N := by
                rw [List.length_drop, ha2len] at hi1
                omega
              have h1b : get1 a2 (m + 2 + i) = get1 a1 (m + 2 + i) :=
                S4 (m + 2 + i) (by omega)
              have h2b : get1 (set1 a1 1 tmp) (m + 2 + i) = get1 a1 (m + 2 + i) :=
                get1_set1_ne a1 1 tmp (m + 2 + i) (by omega) (by omega) (by omega)
              have hg1 : get1 a2 (m + 2 + i) = a2[m + 1 + i] := by
                unfold get1
                rw [List.getD_eq_getElem _ _ (by omega)]
                congr 1
                omega
              have hstl : (set1 a1 1 tmp).length = N := by
                rw [set1_length, ha1len]
              have hg2 : get1 (set1 a1 1 tmp) (m + 2 + i) =
                  (set1 a1 1 tmp)[m + 1 + i] := by
                unfold get1
                rw [List.getD_eq_getElem _ _ (by rw [set1_length, ha1len]; omega)]
                congr 1
                omega
              rw [← hg1, ← hg2, h1b, h2b]
          have htakeperm : (a2.take (m + 1)).Perm ((set1 a1 1 tmp).take (m + 1)) :=
            perm_take_of_perm_of_drop_eq _ _ _ hperm hdropeq
          have htake_bound : ∀ x ∈ (set1 a1 1 tmp).take (m + 1),
              v x ≤ v (get1 a 1) := by
            apply forall_mem_take
            intro i hi hin
            rcases Nat.eq_zero_or_pos i with rfl | hipos
            · have : (set1 a1 1 tmp)[0] = tmp := by
                have := get1_set1_self a1 1 tmp (by omega) (by omega)
                unfold get1 at this
                rw [List.getD_eq_getElem _ _ (by simpa using hi)] at this
                simpa using this
              rw [this, htmpdef]
              exact hroot_ge (m + 2) (by omega) (by omega)
            · have hne : (set1 a1 1 tmp)[i] = get1 a (i + 1) := by
                have h1b : get1 (set1 a1 1 tmp) (i + 1) = get1 a1 (i + 1) :=
                  get1_set1_ne a1 1 tmp (i + 1) (by omega) (by omega) (by omega)
                have h2b : get1 a1 (i + 1) = get1 a (i + 1) :=
                  ha1small (i + 1) (by omega) (by omega)
                have hg : get1 (set1 a1 1 tmp) (i + 1) =
                    (set1 a1 1 tmp)[i] := by
                  unfold get1
                  rw [List.getD_eq_getElem _ _ (by simpa using hi)]
                  simp only [Nat.add_sub_cancel]
                rw [← hg, h1b, h2b]
              rw [hne]
              exact hroot_ge (i + 1) (by omega) (by omega)
          have hsmall : ∀ i, 1 ≤ i → i ≤ m + 1 → v (get1 a2 i) ≤ v (get1 a 1) := by
            intro i hi1 hi2
            have hmem : get1 a2 i ∈ a2.take (m + 1) := by
              have hg : get1 a2 i = a2[i - 1] := by
                unfold get1
                rw [List.getD_eq_getElem _ _ (by omega)]
              rw [hg]
              rw [List.mem_take_iff_getElem]
              exact ⟨i - 1, lt_min (by omega) (by omega), rfl⟩
            exact htake_bound _ (htakeperm.mem_iff.mp hmem)
          refine ih (m + 1) (by omega) a2 ha2len (by omega)
            (fun k hk2 hkn => S1 k hk2 hkn (by omega)) ?_ ?_ k1 k2 h1 h2 h3
          · intro j1 j2 hj1 hj2 hj3
            rcases Nat.eq_or_lt_of_le (by omega : m + 2 ≤ j1) with heq | hgt
            · rw [← heq, ha2_m2, ha2_gt j2 (by omega)]
              exact hdom 1 j2 (by omega) (by omega) (by omega) hj3
            · rw [ha2_gt j1 (by omega), ha2_gt j2 (by omega)]
              exact htail j1 j2 (by omega) hj2 hj3
          · intro i k hi1 hi2 hk1 hk2
            rcases Nat.eq_or_lt_of_le (by omega : m + 2 ≤ k) with heq | hgt
            · rw [← heq, ha2_m2]
              exact hsmall i hi1 hi2
            · rw [ha2_gt k (by omega)]
              exact le_trans (hsmall i hi1 hi2)
                (hdom 1 k (by omega) (by omega) (by omega) hk2)

/-- Heapify then extract yields an ascending array: `aheapsort` sorts. -/
theorem aheapsort_sorted (v : ℕ → ℚ) (t : List ℕ) :
    (aheapsort v t).Pairwise (fun p q => v p ≤ v q) := by
  have hb := buildHeapLoop_perm v t.length (t.length / 2) t (le_refl _)
  have hblen : (buildHeapLoop v t.length (t.length / 2) t).length = t.length :=
    hb.length_eq
  have hheap : ∀ k, 2 ≤ k → k ≤ t.length →
      v (get1 (buildHeapLoop v t.length (t.length / 2) t) k) ≤
      v (get1 (buildHeapLoop v t.length (t.length / 2) t) (k / 2)) := by
    refine buildHeapLoop_spec v t.length (t.length / 2) t (le_refl _)
      (by omega) ?_
    intro k hk2 hkn hkd
    exact absurd hkd (by omega)
  have hext := extractLoop_spec v t.length t.length
    (buildHeapLoop v t.length (t.length / 2) t) hblen (le_refl _) hheap
    (by intro k1 k2 ha hc hd; exact absurd hd (by omega))
    (by intro i k h1 h2 h3 h4; exact absurd h4 (by omega))
  have heq : aheapsort v t =
      extractLoop v t.length (buildHeapLoop v t.length (t.length / 2) t) := rfl
  have hlen : (aheapsort v t).length = t.length := (aheapsort_perm v t).length_eq
  rw [List.pairwise_iff_getElem]
  intro i j hi hj hij
  have h1 : get1 (aheapsort v t) (i + 1) = (aheapsort v t)[i] := by
    unfold get1
    rw [List.getD_eq_getElem _ _ (by omega)]
    simp only [Nat.add_sub_cancel]
  have h2 : get1 (aheapsort v t) (j + 1) = (aheapsort v t)[j] := by
    unfold get1
    rw [List.getD_eq_getElem _ _ (by omega)]
    simp only [Nat.add_sub_cancel]
  rw [← h1, ← h2, heq]
  exact hext (i + 1) (j + 1) (by omega) (by omega) (by omega)

/-- An element of `l.take n` is `l.getD k 0` for some in-range `k < n`. -/
theorem mem_take_getD (l : List ℕ) (n : ℕ) (x : ℕ) (h : x ∈ l.take n) :
    ∃ k, k < n ∧ k < l.length ∧ l.getD k 0 = x := by
  rw [List.mem_take_iff_getElem] at h
  obtain ⟨i, hm, hx⟩ := h
  have h1 : i < n := lt_of_lt_of_le hm (min_le_left _ _)
  have h2 : i < l.length := lt_of_lt_of_le hm (min_le_right _ _)
  exact ⟨i, h1, h2, by rw [List.getD_eq_getElem _ _ h2]; exact hx⟩

/-- An element of `l.drop n` is `l.getD k 0` for some in-range `k ≥ n`. -/
theorem mem_drop_getD (l : List ℕ) (n : ℕ) (x : ℕ) (h : x ∈ l.drop n) :
    ∃ k, n ≤ k ∧ k < l.length ∧ l.getD k 0 = x := by
  obtain ⟨i, hi, hx⟩ := List.mem_iff_getElem.mp h
  have hlen : (l.drop n).length = l.length - n := List.length_drop n l
  have h2 : n + i < l.length := by omega
  refine ⟨n + i, by omega, h2, ?_⟩
  rw [List.getD_eq_getElem _ _ h2, ← List.getElem_drop l]
  exact hx

/-- The introsort driver sorts: every branch (heapsort fallback, insertion
sort on small segments, quicksort partition + recursion) yields an ascending
segment, provided the fuel covers the segment length. -/
theorem introLoop_sorted (v : ℕ → ℚ) :
    ∀ (fuel : ℕ) (t : List ℕ) (d : ℤ) (c : Bool), t.length ≤ fuel →
      (introLoop v fuel t d c).Pairwise (fun p q => v p ≤ v q) := by
  intro fuel
  induction fuel with
  | zero =>
      intro t d c h
      have ht : t = [] := List.length_eq_zero.mp (by omega)
      subst ht
      rw [introLoop]
      exact List.Pairwise.nil
  | succ fuel ih =>
      intro t d c h
      rw [introLoop]
      split
      · exact aheapsort_sorted v t
      · split
        · exact insertionASort_sorted v t
        · rename_i hc hlen
          push_neg at hlen
          obtain ⟨hfst, hbelow, habove⟩ := apartition_spec v t (by omega)
          have hulen : (apartition v t).2.length = t.length :=
            apartition_length v t
          have hLlen :
              ((apartition v t).2.take (apartition v t).1).length ≤ fuel := by
            rw [List.length_take]
            omega
          have hRlen :
              ((apartition v t).2.drop ((apartition v t).1 + 1)).length ≤
                fuel := by
            rw [List.length_drop]
            omega
          have hL : ∀ (d' : ℤ) (c' : Bool), ∀ a ∈ introLoop v fuel
                ((apartition v t).2.take (apartition v t).1) d' c',
              v a ≤ v ((apartition v t).2.getD (apartition v t).1 0) := by
            intro d' c' a ha
            have hmem := (introLoop_perm v fuel _ d' c').mem_iff.mp ha
            obtain ⟨k, hk1, hk2, hk3⟩ := mem_take_getD _ _ _ hmem
            rw [← hk3]
            exact hbelow k hk1
          have hR : ∀ (d' : ℤ) (c' : Bool), ∀ b ∈ introLoop v fuel
                ((apartition v t).2.drop ((apartition v t).1 + 1)) d' c',
              v ((apartition v t).2.getD (apartition v t).1 0) ≤ v b := by
            intro d' c' b hb
            have hmem := (introLoop_perm v fuel _ d' c').mem_iff.mp hb
            obtain ⟨k, hk1, hk2, hk3⟩ := mem_drop_getD _ _ _ hmem
            rw [← hk3]
            exact habove k (by omega) hk2
          split
          all_goals
            refine List.pairwise_append.mpr
              ⟨ih _ _ _ hLlen,
               List.pairwise_cons.mpr
                 ⟨fun b hb => hR _ _ b hb, ih _ _ _ hRlen⟩, ?_⟩
          all_goals
            intro a ha b hb
            rcases List.mem_cons.mp hb with rfl | hb2
            · exact hL _ _ a ha
            · exact le_trans (hL _ _ a ha) (hR _ _ b hb2)

/-- `npArgsort` produces indices through which the values read ascending. -/
theorem npArgsort_sorted (vals : List ℚ) :
    (npArgsort vals).Pairwise (fun i j => vals.getD i 0 ≤ vals.getD j 0) := by
  unfold npArgsort
  exact introLoop_sorted _ _ _ _ _ (by simp)

/-- Members of `npArgsort vals` are positions of `vals`. -/
theorem mem_npArgsort_lt (vals : List ℚ) (i : ℕ) (h : i ∈ npArgsort vals) :
    i < vals.length := by
  have := (npArgsort_perm vals).mem_iff.mp h
  rwa [List.mem_range] at this

/-- The double-reversal nargsort of pandas reads the values descending. -/
theorem pdNargsortDesc_sorted (vals : List ℚ) :
    (pdNargsortDesc vals).Pairwise
      (fun i j => vals.getD j 0 ≤ vals.getD i 0) := by
  unfold pdNargsortDesc
  rw [List.pairwise_reverse, List.pairwise_map]
  have hrevlen : vals.reverse.length = vals.length := List.length_reverse vals
  have hidx : ∀ i, i < vals.length →
      ((List.range vals.length).reverse).getD i 0 = vals.length - 1 - i := by
    intro i hi
    rw [List.getD_eq_getElem _ _ (by simp; omega)]
    rw [List.getElem_reverse]
    simp
  have hrev : ∀ i, i < vals.length →
      vals.reverse.getD i 0 = vals.getD (vals.length - 1 - i) 0 := by
    intro i hi
    rw [List.getD_eq_getElem _ _ (by omega),
      List.getD_eq_getElem _ _ (by omega)]
    rw [List.getElem_reverse]
  refine (npArgsort_sorted vals.reverse).imp_of_mem ?_
  intro a b ha hb hab
  have ha2 : a < vals.length := by
    have := mem_npArgsort_lt _ _ ha
    omega
  have hb2 : b < vals.length := by
    have := mem_npArgsort_lt _ _ hb
    omega
  rw [hidx a ha2, hidx b hb2, ← hrev a ha2, ← hrev b hb2]
  exact hab

/-- `sort_values('Score', ascending=False)` leaves the rows pairwise
descending in their `score` field. -/
theorem sortValuesScoreDesc_sorted (rows : List RecRow) :
    (sortValuesScoreDesc rows).Pairwise
      (fun x y => y.score ≤ x.score) := by
  unfold sortValuesScoreDesc
  rw [List.pairwise_map]
  have hvlen : (rows.map (·.score)).length = rows.length := by simp
  have hval : ∀ i, i < rows.length →
      (rows.map (·.score)).getD i 0 = (rows.getD i default).score := by
    intro i hi
    rw [List.getD_eq_getElem _ _ (by omega),
      List.getD_eq_getElem _ _ (by omega)]
    simp
  refine (pdNargsortDesc_sorted (rows.map (·.score))).imp_of_mem ?_
  intro a b ha hb hab
  have ha2 : a < rows.length := by
    have := mem_pdNargsortDesc_lt _ _ ha
    omega
  have hb2 : b < rows.length := by
    have := mem_pdNargsortDesc_lt _ _ hb
    omega
  rw [hval a ha2, hval b hb2] at hab
  exact hab

/-! ### C2: the order of the ranked output -/

/-- Seventeen exploded score rows with distinct identifiers `1..17` and all
scores equal.  Seventeen is the smallest length at which the numpy introsort
enters its partition branch instead of the (stable-on-this-data) insertion
sort, so it is the smallest roster exhibiting the instability. -/
def c2EqualScores : List IdentifiedScore :=
  [⟨PyFloat.val 1, 1⟩, ⟨PyFloat.val 2, 1⟩, ⟨PyFloat.val 3, 1⟩,
   ⟨PyFloat.val 4, 1⟩, ⟨PyFloat.val 5, 1⟩, ⟨PyFloat.val 6, 1⟩,
   ⟨PyFloat.val 7, 1⟩, ⟨PyFloat.val 8, 1⟩, ⟨PyFloat.val 9, 1⟩,
   ⟨PyFloat.val 10, 1⟩, ⟨PyFloat.val 11, 1⟩, ⟨PyFloat.val 12, 1⟩,
   ⟨PyFloat.val 13, 1⟩, ⟨PyFloat.val 14, 1⟩, ⟨PyFloat.val 15, 1⟩,
   ⟨PyFloat.val 16, 1⟩, ⟨PyFloat.val 17, 1⟩]

/-- A roster carrying exactly the seventeen identifiers of
`c2EqualScores`. -/
def c2EqualRoster : List RosterEntry :=
  [⟨PyFloat.val 1, "m"⟩, ⟨PyFloat.val 2, "m"⟩, ⟨PyFloat.val 3, "m"⟩,
   ⟨PyFloat.val 4, "m"⟩, ⟨PyFloat.val 5, "m"⟩, ⟨PyFloat.val 6, "m"⟩,
   ⟨PyFloat.val 7, "m"⟩, ⟨PyFloat.val 8, "m"⟩, ⟨PyFloat.val 9, "m"⟩,
   ⟨PyFloat.val 10, "m"⟩, ⟨PyFloat.val 11, "m"⟩, ⟨PyFloat.val 12, "m"⟩,
   ⟨PyFloat.val 13, "m"⟩, ⟨PyFloat.val 14, "m"⟩, ⟨PyFloat.val 15, "m"⟩,
   ⟨PyFloat.val 16, "m"⟩, ⟨PyFloat.val 17, "m"⟩]

/-- C2 counterexample (refuting the stability half of the claim): on
seventeen rows that all carry score `1`, the inner merge emits the
identifiers in input order `1..17`, yet in the ranked output identifier
`10` precedes identifier `2` — two rows with equal scores do not keep
their input order, because `sort_values` uses numpy's default quicksort
argsort, which is not a stable sort.  (The actual output order is
`1,10,16,15,14,13,12,11,9,2,8,7,6,5,4,3,17`.) -/
theorem c2_counterexample_equal_scores_reordered :
    (∀ r ∈ rosterJoin c2EqualScores c2EqualRoster, r.score = 1) ∧
    (innerMerge c2EqualScores c2EqualRoster).map RecRow.authId =
      c2EqualScores.map IdentifiedScore.authId ∧
    ((rosterJoin c2EqualScores c2EqualRoster).map RecRow.authId).indexOf
        (PyFloat.val 10) <
      ((rosterJoin c2EqualScores c2EqualRoster).map RecRow.authId).indexOf
        (PyFloat.val 2) := by
  decide

/-- C2 (amended): for every input sequence of IdentifiedScore rows and every
roster, the ranked output of the RosterJoiner is sorted by score in
descending order; rows with equal scores, however, may appear in an order
different from their input order (the quicksort argsort behind
`sort_values` is not stable). -/
theorem c2_amended_sorted_desc (scores : List IdentifiedScore)
    (roster : List RosterEntry) :
    (rosterJoin scores roster).Pairwise (fun x y => y.score ≤ x.score) :=
  sortValuesScoreDesc_sorted _
